import Mathlib

/-!
Verification development for the mesh-topology engine in `read_data.py`.

Modelling conventions:
* `Point`s only matter up to decidable equality, so ingestion is parametrised
  over an arbitrary type with `DecidableEq` instead of floating-point triples.
* Python `set`s are modelled as duplicate-free `List`s; `set.add` inserts only
  when absent, and `set.pop` (whose order CPython leaves unspecified) pops the
  head of the list, which is one legal order.
* Python `dict`s mapping edges to triangle lists (`defaultdict(list)`) are
  modelled as total functions `Edge → List Triangle`, missing keys giving `[]`.
* The two worklist loops (`get_connected_component`, `orient_component`) are
  written with explicit fuel; termination is proved separately.
* `remove_unwanted_triangles` pops from a Python set in unspecified order, so
  it is modelled as a small-step relation quantifying over the popped element.
-/

namespace Poroznost

abbrev Edge := Nat × Nat

abbrev Triangle := Nat × Nat × Nat

/-- `tuple(sorted((a, b)))` from the source: the canonical `(min, max)` edge. -/
def sortPair (a b : Nat) : Edge := (min a b, max a b)

/-- `edges_from_triangle` from the source: the three canonically ordered edges,
in source order `(t0,t1)`, `(t1,t2)`, `(t0,t2)`. -/
def edges_from_triangle (t : Triangle) : List Edge :=
  [sortPair t.1 t.2.1, sortPair t.2.1 t.2.2, sortPair t.1 t.2.2]

/-- Python `set.add` on a set modelled as a duplicate-free list. -/
def sadd {α : Type} [DecidableEq α] (l : List α) (a : α) : List α :=
  if a ∈ l then l else l ++ [a]

theorem mem_sadd {α : Type} [DecidableEq α] (l : List α) (a x : α) :
    x ∈ sadd l a ↔ x ∈ l ∨ x = a := by
  unfold sadd
  split
  · constructor
    · exact fun hx => Or.inl hx
    · rintro (hx | rfl)
      · exact hx
      · assumption
  · simp [List.mem_append]

theorem sadd_nodup {α : Type} [DecidableEq α] (l : List α) (a : α)
    (h : l.Nodup) : (sadd l a).Nodup := by
  unfold sadd
  split
  · exact h
  · simpa [List.nodup_append] using ⟨h, by assumption⟩

theorem sadd_subset {α : Type} [DecidableEq α] (l : List α) (a : α) :
    l ⊆ sadd l a := by
  intro x hx
  exact (mem_sadd l a x).mpr (Or.inl hx)

/-- `split_triangles` from the source: fold over the triangle list, putting a
triangle into the weird set when some edge has more than 2 incident triangles
and into the regular set otherwise.  Returns `(weird, regular)`. -/
def split_triangles (triangles : List Triangle)
    (edge_triangle : Edge → List Triangle) : List Triangle × List Triangle :=
  triangles.foldl
    (fun wr triangle =>
      if (edges_from_triangle triangle).any
          (fun e => decide (2 < (edge_triangle e).length)) then
        (sadd wr.1 triangle, wr.2)
      else
        (wr.1, sadd wr.2 triangle))
    ([], [])

theorem split_triangles_aux (et : Edge → List Triangle) (t : Triangle) :
    ∀ (ts : List Triangle) (w r : List Triangle),
      (t ∈ (ts.foldl
          (fun wr triangle =>
            if (edges_from_triangle triangle).any
                (fun e => decide (2 < (et e).length)) then
              (sadd wr.1 triangle, wr.2)
            else
              (wr.1, sadd wr.2 triangle)) (w, r)).1 ↔
        t ∈ w ∨ (t ∈ ts ∧ ∃ e ∈ edges_from_triangle t, 2 < (et e).length))
    ∧ (t ∈ (ts.foldl
          (fun wr triangle =>
            if (edges_from_triangle triangle).any
                (fun e => decide (2 < (et e).length)) then
              (sadd wr.1 triangle, wr.2)
            else
              (wr.1, sadd wr.2 triangle)) (w, r)).2 ↔
        t ∈ r ∨ (t ∈ ts ∧ ∀ e ∈ edges_from_triangle t, (et e).length ≤ 2)) := by
  intro ts
  induction ts with
  | nil => intro w r; simp
  | cons x ts ih =>
    intro w r
    simp only [List.foldl_cons]
    by_cases hx : (edges_from_triangle x).any (fun e => decide (2 < (et e).length))
    · rw [if_pos hx]
      obtain ⟨ih1, ih2⟩ := ih (sadd w x) r
      constructor
      · rw [ih1, mem_sadd]
        simp only [List.mem_cons]
        constructor
        · rintro ((hw | rfl) | ⟨hts, he⟩)
          · exact Or.inl hw
          · refine Or.inr ⟨Or.inl rfl, ?_⟩
            simpa using hx
          · exact Or.inr ⟨Or.inr hts, he⟩
        · rintro (hw | ⟨(rfl | hts), he⟩)
          · exact Or.inl (Or.inl hw)
          · exact Or.inl (Or.inr rfl)
          · exact Or.inr ⟨hts, he⟩
      · rw [ih2]
        simp only [List.mem_cons]
        constructor
        · rintro (hr | ⟨hts, he⟩)
          · exact Or.inl hr
          · exact Or.inr ⟨Or.inr hts, he⟩
        · rintro (hr | ⟨(rfl | hts), he⟩)
          · exact Or.inl hr
          · exfalso
            simp only [List.any_eq_true, decide_eq_true_eq] at hx
            obtain ⟨e, he1, he2⟩ := hx
            exact absurd he2 (not_lt.mpr (he e he1))
          · exact Or.inr ⟨hts, he⟩
    · rw [if_neg hx]
      obtain ⟨ih1, ih2⟩ := ih w (sadd r x)
      constructor
      · rw [ih1]
        simp only [List.mem_cons]
        constructor
        · rintro (hw | ⟨hts, he⟩)
          · exact Or.inl hw
          · exact Or.inr ⟨Or.inr hts, he⟩
        · rintro (hw | ⟨(rfl | hts), he⟩)
          · exact Or.inl hw
          · exfalso
            simp only [List.any_eq_true, decide_eq_true_eq, not_exists] at hx
            obtain ⟨e, he1, he2⟩ := he
            exact hx e ⟨he1, he2⟩
          · exact Or.inr ⟨hts, he⟩
      · rw [ih2, mem_sadd]
        simp only [List.mem_cons]
        constructor
        · rintro ((hr | rfl) | ⟨hts, he⟩)
          · exact Or.inl hr
          · refine Or.inr ⟨Or.inl rfl, ?_⟩
            intro e he1
            by_contra hlt
            simp only [List.any_eq_true, decide_eq_true_eq, not_exists] at hx
            exact hx e ⟨he1, lt_of_not_ge hlt⟩
          · exact Or.inr ⟨Or.inr hts, he⟩
        · rintro (hr | ⟨(rfl | hts), he⟩)
          · exact Or.inl (Or.inl hr)
          · exact Or.inl (Or.inr rfl)
          · exact Or.inr ⟨hts, he⟩

/-- C5: `split_triangles` returns two sets that are disjoint and together
exhaust the input; a triangle is weird iff some edge has adjacency-list size
greater than 2, and regular iff all three edges have size at most 2. -/
theorem split_triangles_partition (triangles : List Triangle)
    (edge_triangle : Edge → List Triangle) (t : Triangle) :
    (t ∈ (split_triangles triangles edge_triangle).1 ↔
      t ∈ triangles ∧ ∃ e ∈ edges_from_triangle t, 2 < (edge_triangle e).length)
    ∧ (t ∈ (split_triangles triangles edge_triangle).2 ↔
      t ∈ triangles ∧ ∀ e ∈ edges_from_triangle t, (edge_triangle e).length ≤ 2)
    ∧ ¬(t ∈ (split_triangles triangles edge_triangle).1 ∧
        t ∈ (split_triangles triangles edge_triangle).2)
    ∧ (t ∈ triangles → t ∈ (split_triangles triangles edge_triangle).1 ∨
        t ∈ (split_triangles triangles edge_triangle).2) := by
  obtain ⟨h1, h2⟩ := split_triangles_aux edge_triangle t triangles [] []
  simp only [List.not_mem_nil, false_or] at h1 h2
  unfold split_triangles
  refine ⟨h1, h2, ?_, ?_⟩
  · rintro ⟨hw, hr⟩
    obtain ⟨-, e, he1, he2⟩ := h1.mp hw
    exact absurd he2 (not_lt.mpr ((h2.mp hr).2 e he1))
  · intro ht
    by_cases hc : ∃ e ∈ edges_from_triangle t, 2 < (edge_triangle e).length
    · exact Or.inl (h1.mpr ⟨ht, hc⟩)
    · refine Or.inr (h2.mpr ⟨ht, ?_⟩)
      intro e he
      by_contra hlt
      exact hc ⟨e, he, lt_of_not_ge hlt⟩

/-- One step of the adjacency-map construction in `process_file`: for each edge
of the triangle, append the triangle to that edge's list. -/
def addTriangleEdges (m : Edge → List Triangle) (t : Triangle) :
    Edge → List Triangle :=
  (edges_from_triangle t).foldl
    (fun m2 a => fun e2 => if e2 = a then m2 e2 ++ [t] else m2 e2) m

/-- The adjacency map built from a triangle list as `process_file` builds it
(`edge_triange[edge].append(triangle)` for every edge of every triangle). -/
def buildET (triangles : List Triangle) : Edge → List Triangle :=
  triangles.foldl addTriangleEdges (fun _ => [])

theorem addTriangleEdges_count (t : Triangle) :
    ∀ (L : List Edge) (m : Edge → List Triangle) (e : Edge) (x : Triangle),
      ((L.foldl (fun m2 a => fun e2 => if e2 = a then m2 e2 ++ [t] else m2 e2) m) e).count x
        = (m e).count x + (if x = t then L.count e else 0) := by
  intro L
  induction L with
  | nil => intro m e x; simp
  | cons a L ih =>
    intro m e x
    simp only [List.foldl_cons]
    rw [ih]
    have hupd : ((fun e2 => if e2 = a then m e2 ++ [t] else m e2) e).count x
        = (m e).count x + (if e = a then (if x = t then 1 else 0) else 0) := by
      by_cases hea : e = a
      · simp [hea, List.count_append, List.count_singleton]
        by_cases hxt : x = t
        · simp [hxt]
        · have : ¬(t = x) := fun h => hxt h.symm
          simp [hxt, this]
      · simp [hea]
    rw [hupd, List.count_cons]
    by_cases hea : e = a
    · by_cases hxt : x = t
      · simp [hea, hxt, beq_iff_eq]
        try omega
      · simp [hea, beq_iff_eq, if_neg hxt]
        try omega
    · have hae : a ≠ e := fun h => hea h.symm
      by_cases hxt : x = t
      · simp [beq_iff_eq, if_neg hea, if_neg hae, hxt]
        try omega
      · simp [beq_iff_eq, if_neg hea, if_neg hxt]
        try omega

theorem buildET_count :
    ∀ (ts : List Triangle) (m : Edge → List Triangle) (e : Edge) (x : Triangle),
      ((ts.foldl addTriangleEdges m) e).count x
        = (m e).count x + ts.count x * (edges_from_triangle x).count e := by
  intro ts
  induction ts with
  | nil => intro m e x; simp
  | cons t ts ih =>
    intro m e x
    simp only [List.foldl_cons]
    rw [ih]
    unfold addTriangleEdges
    rw [addTriangleEdges_count]
    by_cases hxt : x = t
    · subst hxt
      simp [List.count_cons]
      ring
    · have : ¬(t = x) := fun h => hxt h.symm
      simp [List.count_cons, if_neg hxt, this]

theorem count_buildET (ts : List Triangle) (e : Edge) (x : Triangle) :
    (buildET ts e).count x = ts.count x * (edges_from_triangle x).count e := by
  unfold buildET
  rw [buildET_count]
  simp

theorem mem_buildET (ts : List Triangle) (e : Edge) (x : Triangle) :
    x ∈ buildET ts e ↔ x ∈ ts ∧ e ∈ edges_from_triangle x := by
  rw [← List.count_pos_iff, count_buildET, Nat.pos_iff_ne_zero, Nat.mul_ne_zero_iff]
  rw [← Nat.pos_iff_ne_zero, ← Nat.pos_iff_ne_zero]
  rw [List.count_pos_iff, List.count_pos_iff]

/-- The per-triangle neighbour count of `add_weird_triangles_to_components`:
how many of the triangle's three edges have at least one incident triangle
that is currently a member of the component (`sum(neighbours)`). -/
def weirdNeighbourCount (component : List Triangle)
    (edge_triangle : Edge → List Triangle) (w : Triangle) : Nat :=
  ((edges_from_triangle w).map
    (fun e => decide
      (0 < ((edge_triangle e).filter (fun t => decide (t ∈ component))).length))).count
    true

/-- The inner loop of `add_weird_triangles_to_components` for one component:
fold over the weird-triangle list, adding a weird triangle to the component
when more than 1 of its edges has a neighbour in the (current) component. -/
def add_weird_to_component (edge_triangle : Edge → List Triangle)
    (component : List Triangle) (weird_triangles : List Triangle) :
    List Triangle :=
  weird_triangles.foldl
    (fun c w =>
      if 1 < weirdNeighbourCount c edge_triangle w then sadd c w else c)
    component

/-- `add_weird_triangles_to_components` from the source (the Python version
mutates `components` in place; here the updated list is returned). -/
def add_weird_triangles_to_components (components : List (List Triangle))
    (weird_triangles : List Triangle) (edge_triangle : Edge → List Triangle) :
    List (List Triangle) :=
  components.map (fun c => add_weird_to_component edge_triangle c weird_triangles)

theorem add_weird_cons (et : Edge → List Triangle) (c : List Triangle)
    (w : Triangle) (ws : List Triangle) :
    add_weird_to_component et c (w :: ws)
      = add_weird_to_component et
          (if 1 < weirdNeighbourCount c et w then sadd c w else c) ws := rfl

theorem add_weird_mem_orig (et : Edge → List Triangle) :
    ∀ (ws : List Triangle) (c : List Triangle) (x : Triangle),
      x ∈ add_weird_to_component et c ws → x ∈ c ∨ x ∈ ws := by
  intro ws
  induction ws with
  | nil => intro c x hx; exact Or.inl hx
  | cons w ws ih =>
    intro c x hx
    rw [add_weird_cons] at hx
    rcases ih _ x hx with hc | hwss
    · by_cases hcond : 1 < weirdNeighbourCount c et w
      · rw [if_pos hcond] at hc
        rcases (mem_sadd c w x).mp hc with h | rfl
        · exact Or.inl h
        · exact Or.inr (List.mem_cons_self _ _)
      · rw [if_neg hcond] at hc
        exact Or.inl hc
    · exact Or.inr (List.mem_cons_of_mem _ hwss)

theorem add_weird_mem_of_not_mem (et : Edge → List Triangle) :
    ∀ (ws : List Triangle) (c : List Triangle) (x : Triangle), x ∉ ws →
      (x ∈ add_weird_to_component et c ws ↔ x ∈ c) := by
  intro ws
  induction ws with
  | nil => intro c x _; exact Iff.rfl
  | cons w ws ih =>
    intro c x hx
    have hxw : x ≠ w := fun h => hx (h ▸ List.mem_cons_self _ _)
    have hxws : x ∉ ws := fun h => hx (List.mem_cons_of_mem _ h)
    rw [add_weird_cons, ih _ x hxws]
    by_cases hcond : 1 < weirdNeighbourCount c et w
    · rw [if_pos hcond, mem_sadd]
      constructor
      · rintro (h | rfl)
        · exact h
        · exact absurd rfl hxw
      · exact Or.inl
    · rw [if_neg hcond]

/-- C7 (amended): a weird triangle `w` that occurs once in the weird list and
is not already a member is added to a component exactly when more than 1 of
its edges has a neighbour in the component *as it stands when `w` is
examined*, i.e. including weird triangles added earlier in the pass. -/
theorem add_weird_iff_neighbours_at_examination
    (edge_triangle : Edge → List Triangle) (component : List Triangle)
    (ws1 ws2 : List Triangle) (w : Triangle)
    (hc : w ∉ component) (h1 : w ∉ ws1) (h2 : w ∉ ws2) :
    w ∈ add_weird_to_component edge_triangle component (ws1 ++ w :: ws2) ↔
      1 < weirdNeighbourCount
            (add_weird_to_component edge_triangle component ws1)
            edge_triangle w := by
  have happ : add_weird_to_component edge_triangle component (ws1 ++ w :: ws2)
      = add_weird_to_component edge_triangle
          (add_weird_to_component edge_triangle component ws1) (w :: ws2) := by
    unfold add_weird_to_component
    rw [List.foldl_append]
  rw [happ, add_weird_cons, add_weird_mem_of_not_mem edge_triangle ws2 _ w h2]
  set c1 := add_weird_to_component edge_triangle component ws1 with hc1
  have hwc1 : w ∉ c1 := by
    intro hmem
    rcases add_weird_mem_orig edge_triangle ws1 component w hmem with h | h
    · exact hc h
    · exact h1 h
  by_cases hcond : 1 < weirdNeighbourCount c1 edge_triangle w
  · rw [if_pos hcond]
    simp [mem_sadd, hcond]
  · rw [if_neg hcond]
    simp [hwc1, hcond]

/-- The component `{(0,1,2), (2,3,4)}` used to refute the original reading of
C7 and to confirm C10. -/
def c7Component : List Triangle := [(0, 1, 2), (2, 3, 4)]

/-- The adjacency map over the two component triangles and the two weird
triangles `(1,2,3)` and `(0,1,3)`. -/
def c7ET : Edge → List Triangle :=
  buildET [(0, 1, 2), (2, 3, 4), (1, 2, 3), (0, 1, 3)]

/-- Witness for the amended C7 theorem at the concrete bridging input. -/
theorem add_weird_iff_neighbours_witness :
    ((0, 1, 3) : Triangle) ∈
        add_weird_to_component c7ET c7Component ([(1, 2, 3)] ++ (0, 1, 3) :: [])
      ↔ 1 < weirdNeighbourCount
            (add_weird_to_component c7ET c7Component [(1, 2, 3)])
            c7ET (0, 1, 3) :=
  add_weird_iff_neighbours_at_examination c7ET c7Component
    [(1, 2, 3)] [] (0, 1, 3) (by decide) (by decide) (by decide)

/-- C7 counterexample: with weird list `[(1,2,3), (0,1,3)]`, the triangle
`(0,1,3)` is added to the component although only 1 of its three edges has a
neighbouring triangle that is a member of the given component — the second
neighbour is the weird triangle `(1,2,3)` added earlier in the same pass. -/
theorem add_weird_not_iff_component_membership :
    ((0, 1, 3) : Triangle) ∈
        add_weird_to_component c7ET c7Component [(1, 2, 3), (0, 1, 3)]
      ∧ weirdNeighbourCount c7Component c7ET (0, 1, 3) = 1 := by
  constructor
  · decide
  · decide

/-- C10: the result of weird-triangle reattachment depends on the iteration
order of the weird-triangle list: `(0,1,3)` is added when `(1,2,3)` comes
first, and not added when the list is reversed. -/
theorem add_weird_order_dependent :
    ((0, 1, 3) : Triangle) ∈
        add_weird_to_component c7ET c7Component [(1, 2, 3), (0, 1, 3)]
      ∧ ((0, 1, 3) : Triangle) ∉
        add_weird_to_component c7ET c7Component [(0, 1, 3), (1, 2, 3)] := by
  constructor
  · decide
  · decide

/-- `swap_orientation` from the source: the triple with its first two
vertices swapped. -/
def swap_orientation (t : Triangle) : Triangle := (t.2.1, t.1, t.2.2)

/-- `edge_orientation` from the source: `1` when the edge occurs as one of
the directed edges `(t0,t1)`, `(t1,t2)`, `(t2,t0)` of the triangle, `-1`
otherwise (also for edges not in the triangle, as the source notes). -/
def edge_orientation (t : Triangle) (e : Edge) : Int :=
  if e = (t.1, t.2.1) ∨ e = (t.2.1, t.2.2) ∨ e = (t.2.2, t.1) then 1 else -1

/-- `common_edge` from the source.  The result `none` models the assertion
failure raised when the two triangles share more than one edge; `some none`
is Python's `None` (no common edge); otherwise the unique common edge. -/
def common_edge (t1 t2 : Triangle) : Option (Option Edge) :=
  match ((edges_from_triangle t1).filter
      (fun e => decide (e ∈ edges_from_triangle t2))).dedup with
  | [] => some none
  | [e] => some (some e)
  | _ => none

/-- `is_consistently_oriented` from the source; `none` propagates the
assertion failure from `common_edge`.  When there is no common edge, both
`edge_orientation` calls on Python's `None` return `-1`, the product is `1`,
and the comparison with `-1` yields `False`. -/
def is_consistently_oriented (base test : Triangle) : Option Bool :=
  match common_edge base test with
  | none => none
  | some none => some false
  | some (some e) =>
      some (decide (edge_orientation base e * edge_orientation test e = -1))

/-- Result of a run of `orient_component`: a returned set, an uncaught
exception (`AssertionError` or `KeyError`), or fuel exhaustion of the
model. -/
inductive OResult where
  | done (newComponent : List Triangle)
  | failed
  | fuelOut
deriving DecidableEq

/-- The body of the neighbour loop in `orient_component`: process one
collected neighbour against the popped (already resolved) `triangle`,
updating `processed` and `to_process`; `none` models an assertion failure. -/
def orientNeighbourStep (triangle : Triangle) (newComp : List Triangle)
    (acc : Option (List Triangle × List Triangle)) (neighbour : Triangle) :
    Option (List Triangle × List Triangle) :=
  match acc with
  | none => none
  | some (processed, to_process) =>
    match is_consistently_oriented neighbour triangle with
    | none => none
    | some consistent =>
      if neighbour ∈ newComp then
        if consistent then some (processed, to_process) else none
      else
        some (sadd processed neighbour,
          sadd to_process
            (if consistent then neighbour else swap_orientation neighbour))

/-- The neighbour collection in `orient_component`: for each edge of the
popped triangle, in order, the candidates on that edge that are in the
component and not yet processed. -/
def collectNeighbours (component : List Triangle)
    (edge_triangle : Edge → List Triangle) (processed : List Triangle)
    (triangle : Triangle) : List Triangle :=
  (edges_from_triangle triangle).flatMap
    (fun e => (edge_triangle e).filter
      (fun c => decide (c ∈ component ∧ c ∉ processed)))

/-- The `while to_process` loop of `orient_component`, with explicit fuel.
`to_process.pop()` pops the head; the popped triangle joins the output set,
its unprocessed in-component neighbours are collected, and each is resolved
against the popped triangle's orientation. -/
def orientLoop (component : List Triangle)
    (edge_triangle : Edge → List Triangle) :
    Nat → List Triangle → List Triangle → List Triangle → OResult
  | 0, _, _, _ => OResult.fuelOut
  | _ + 1, newComp, _, [] => OResult.done newComp
  | fuel + 1, newComp, processed, triangle :: rest =>
    match (collectNeighbours component edge_triangle processed triangle).foldl
        (orientNeighbourStep triangle (sadd newComp triangle))
        (some (processed, rest)) with
    | none => OResult.failed
    | some (processed2, to_process2) =>
        orientLoop component edge_triangle fuel
          (sadd newComp triangle) processed2 to_process2

/-- `orient_component` from the source.  `component.pop()` on an empty set
raises `KeyError`, modelled as `failed`; otherwise the head element seeds the
flood fill with itself processed and queued. -/
def orient_component (component : List Triangle)
    (edge_triangle : Edge → List Triangle) (fuel : Nat) : OResult :=
  match component with
  | [] => OResult.failed
  | first :: _ =>
      orientLoop component edge_triangle fuel [] [first] [first]

/-- The 10 triangles of the minimal (6-vertex) triangulation of the real
projective plane: every edge of the complete graph on the vertices 0..5 lies
in exactly 2 of them, so repair removes nothing and every triangle is
regular and forms one component, yet the surface is not orientable. -/
def rp6 : List Triangle :=
  [(0, 1, 3), (0, 1, 4), (0, 2, 3), (0, 2, 5), (0, 4, 5),
   (1, 2, 4), (1, 2, 5), (1, 3, 5), (2, 3, 4), (3, 4, 5)]

/-- The adjacency map of the projective-plane component. -/
def rp6ET : Edge → List Triangle := buildET rp6

/-- The set returned by the modelled run of `orient_component` on the
projective-plane component: one resolved triple per input triangle. -/
def rp6Output : List Triangle :=
  [(0, 1, 3), (1, 0, 4), (3, 1, 5), (2, 0, 3), (4, 0, 5),
   (2, 1, 4), (1, 2, 5), (4, 3, 5), (0, 2, 5), (2, 3, 4)]

/-- C1 (code bug): on the non-orientable projective-plane component — an
input on which any assignment of resolved orientations must contain a
mutually inconsistent adjacent pair — `orient_component` completes and
returns a set instead of raising an error: the returned set itself contains
two triangles whose resolved orientations are mutually inconsistent on their
shared edge.  The source's contradiction check (`assert consistent`) is
unreachable because already-processed neighbours are filtered out before any
recheck can happen. -/
theorem orient_component_silent_on_nonorientable :
    orient_component rp6 rp6ET 30 = OResult.done rp6Output
      ∧ (4, 0, 5) ∈ rp6Output ∧ (4, 3, 5) ∈ rp6Output
      ∧ is_consistently_oriented (4, 0, 5) (4, 3, 5) = some false
      ∧ common_edge (4, 0, 5) (4, 3, 5) = some (some (4, 5)) :=
  ⟨by decide, by decide, by decide, by decide, by decide⟩

/-- C2 (code bug): the component on which `orient_component` completes
without error may violate the orientation invariant: in the returned set for
the projective-plane component, the two distinct resolved triangles
`(4,0,5)` and `(4,3,5)` share the edge `(4,5)` and traverse it in the *same*
direction. -/
theorem orientation_invariant_violated :
    orient_component rp6 rp6ET 30 = OResult.done rp6Output
      ∧ (4, 0, 5) ∈ rp6Output ∧ (4, 3, 5) ∈ rp6Output
      ∧ ((4, 0, 5) : Triangle) ≠ (4, 3, 5)
      ∧ common_edge (4, 0, 5) (4, 3, 5) = some (some (4, 5))
      ∧ edge_orientation (4, 0, 5) (4, 5) = edge_orientation (4, 3, 5) (4, 5) :=
  ⟨by decide, by decide, by decide, by decide, by decide, by decide⟩

/-- A triangle stored canonically, as ingestion produces it: strictly
ascending vertex indices (the source sorts and the input is assumed
non-degenerate). -/
def sorted3 (t : Triangle) : Prop := t.1 < t.2.1 ∧ t.2.1 < t.2.2

instance sorted3_dec : DecidablePred sorted3 := fun t => by
  unfold sorted3; infer_instance

/-- One adjacency step as `orient_component` walks it: `v` is in the
component and lies on one of `u`'s edges in the adjacency map. -/
def adjStep (component : List Triangle) (edge_triangle : Edge → List Triangle)
    (u v : Triangle) : Prop :=
  v ∈ component ∧ ∃ e ∈ edges_from_triangle u, v ∈ edge_triangle e

/-- `r` is one of the two resolved triples of the stored triangle `t`. -/
def resolvedOf (t r : Triangle) : Prop := r = t ∨ r = swap_orientation t

/-- Recover the stored (ascending) triple from a resolved one. -/
def origOf (r : Triangle) : Triangle :=
  if r.1 < r.2.1 then r else swap_orientation r

theorem swap_swap (t : Triangle) : swap_orientation (swap_orientation t) = t := rfl

theorem swap_ne_sorted {t n : Triangle} (ht : sorted3 t) (hn : sorted3 n) :
    n ≠ swap_orientation t := by
  intro h
  have h1 : n.1 = t.2.1 := by rw [h]; rfl
  have h2 : n.2.1 = t.1 := by rw [h]; rfl
  have := hn.1
  rw [h1, h2] at this
  exact absurd ht.1 (not_lt.mpr (le_of_lt this))

theorem origOf_resolved {t r : Triangle} (ht : sorted3 t)
    (hr : resolvedOf t r) : origOf r = t := by
  rcases hr with rfl | rfl
  · unfold origOf
    rw [if_pos ht.1]
  · unfold origOf
    have hlt : ¬((swap_orientation t).1 < (swap_orientation t).2.1) :=
      not_lt.mpr (le_of_lt ht.1)
    rw [if_neg hlt, swap_swap]

theorem resolved_unique {t t2 r : Triangle} (ht : sorted3 t) (ht2 : sorted3 t2)
    (h : resolvedOf t r) (h2 : resolvedOf t2 r) : t = t2 := by
  rw [← origOf_resolved ht h, ← origOf_resolved ht2 h2]

theorem resolved_sorted_mem {t r : Triangle} (ht : sorted3 t)
    (hr : resolvedOf t r) (hs : sorted3 r) : r = t := by
  rcases hr with rfl | rfl
  · rfl
  · exact absurd (swap_ne_sorted ht hs) (fun h => h rfl)

theorem sortPair_comm (a b : Nat) : sortPair a b = sortPair b a := by
  unfold sortPair
  rw [min_comm, max_comm]

theorem edges_swap_mem (t : Triangle) (e : Edge) :
    e ∈ edges_from_triangle (swap_orientation t) ↔ e ∈ edges_from_triangle t := by
  unfold edges_from_triangle swap_orientation
  simp only [List.mem_cons, List.not_mem_nil, or_false]
  rw [sortPair_comm t.2.1 t.1]
  tauto

theorem edges_resolved_mem {t r : Triangle} (hr : resolvedOf t r) (e : Edge) :
    e ∈ edges_from_triangle r ↔ e ∈ edges_from_triangle t := by
  rcases hr with rfl | rfl
  · exact Iff.rfl
  · exact edges_swap_mem t e

theorem edges_of_sorted (t : Triangle) (ht : sorted3 t) :
    edges_from_triangle t = [(t.1, t.2.1), (t.2.1, t.2.2), (t.1, t.2.2)] := by
  obtain ⟨h1, h2⟩ := ht
  unfold edges_from_triangle sortPair
  rw [min_eq_left (le_of_lt h1), max_eq_right (le_of_lt h1),
      min_eq_left (le_of_lt h2), max_eq_right (le_of_lt h2),
      min_eq_left (le_of_lt (lt_trans h1 h2)),
      max_eq_right (le_of_lt (lt_trans h1 h2))]

/-- Two canonically stored triangles sharing two distinct edges are equal. -/
theorem sorted_shared_two_edges {t t2 : Triangle} (ht : sorted3 t)
    (ht2 : sorted3 t2) {e1 e2 : Edge}
    (h1 : e1 ∈ edges_from_triangle t) (h12 : e1 ∈ edges_from_triangle t2)
    (h2 : e2 ∈ edges_from_triangle t) (h22 : e2 ∈ edges_from_triangle t2)
    (hne : e1 ≠ e2) : t = t2 := by
  obtain ⟨a, b, c⟩ := t
  obtain ⟨d, u, v⟩ := t2
  obtain ⟨p, q⟩ := e1
  obtain ⟨p2, q2⟩ := e2
  rw [edges_of_sorted _ ht] at h1 h2
  rw [edges_of_sorted _ ht2] at h12 h22
  obtain ⟨ha1, ha2⟩ := ht
  obtain ⟨hb1, hb2⟩ := ht2
  simp only [List.mem_cons, List.not_mem_nil, or_false, Prod.mk.injEq] at h1 h12 h2 h22 ⊢
  simp only [sorted3] at ha1 ha2 hb1 hb2
  have hne2 : ¬(p = p2 ∧ q = q2) := fun hc => hne (by rw [hc.1, hc.2])
  clear hne
  rcases h1 with ⟨h1a, h1b⟩ | ⟨h1a, h1b⟩ | ⟨h1a, h1b⟩ <;>
    rcases h2 with ⟨h2a, h2b⟩ | ⟨h2a, h2b⟩ | ⟨h2a, h2b⟩ <;>
    rcases h12 with ⟨h12a, h12b⟩ | ⟨h12a, h12b⟩ | ⟨h12a, h12b⟩ <;>
    rcases h22 with ⟨h22a, h22b⟩ | ⟨h22a, h22b⟩ | ⟨h22a, h22b⟩ <;>
    omega

/-- The deterministic resolution `orient_component` assigns to a collected
neighbour relative to the popped triangle: keep its stored order when
consistent, otherwise swap the first two vertices. -/
def resolveAgainst (r n : Triangle) : Triangle :=
  match is_consistently_oriented n r with
  | some true => n
  | _ => swap_orientation n

theorem resolveAgainst_resolved (r n : Triangle) :
    resolvedOf n (resolveAgainst r n) := by
  unfold resolveAgainst
  rcases is_consistently_oriented n r with _ | b
  · exact Or.inr rfl
  · cases b
    · exact Or.inr rfl
    · exact Or.inl rfl

theorem mem_collectNeighbours (component : List Triangle)
    (et : Edge → List Triangle) (P : List Triangle) (r n : Triangle) :
    n ∈ collectNeighbours component et P r ↔
      (∃ e ∈ edges_from_triangle r, n ∈ et e) ∧ n ∈ component ∧ n ∉ P := by
  unfold collectNeighbours
  simp only [List.mem_flatMap, List.mem_filter, decide_eq_true_eq]
  constructor
  · rintro ⟨e, he, hn, hc⟩
    exact ⟨⟨e, he, hn⟩, hc⟩
  · rintro ⟨⟨e, he, hn⟩, hc⟩
    exact ⟨e, he, hn, hc⟩

theorem ico_ne_none {n r t : Triangle} (hn : sorted3 n) (ht : sorted3 t)
    (hres : resolvedOf t r) (hnt : n ≠ t) :
    is_consistently_oriented n r ≠ none := by
  unfold is_consistently_oriented
  rcases hce : common_edge n r with _ | o
  · exfalso
    unfold common_edge at hce
    rcases hl : ((edges_from_triangle n).filter
        (fun e => decide (e ∈ edges_from_triangle r))).dedup with _ | ⟨e1, _ | ⟨e2, rest⟩⟩
    · rw [hl] at hce; cases hce
    · rw [hl] at hce; cases hce
    · have hnd := List.nodup_dedup ((edges_from_triangle n).filter
        (fun e => decide (e ∈ edges_from_triangle r)))
      rw [hl] at hnd
      have hne12 : e1 ≠ e2 := by
        intro h
        rw [List.nodup_cons] at hnd
        exact hnd.1 (h ▸ List.mem_cons_self _ _)
      have he1 : e1 ∈ ((edges_from_triangle n).filter
          (fun e => decide (e ∈ edges_from_triangle r))).dedup := by
        rw [hl]; exact List.mem_cons_self _ _
      have he2 : e2 ∈ ((edges_from_triangle n).filter
          (fun e => decide (e ∈ edges_from_triangle r))).dedup := by
        rw [hl]; exact List.mem_cons_of_mem _ (List.mem_cons_self _ _)
      rw [List.mem_dedup, List.mem_filter] at he1 he2
      obtain ⟨he1n, he1r⟩ := he1
      obtain ⟨he2n, he2r⟩ := he2
      rw [decide_eq_true_eq] at he1r he2r
      rw [edges_resolved_mem hres] at he1r he2r
      exact hnt (sorted_shared_two_edges hn ht he1n he1r he2n he2r hne12)
  · rcases o <;> simp

theorem orientFold_ok (r : Triangle) (NC : List Triangle) :
    ∀ (L P W : List Triangle),
      (∀ n ∈ L, is_consistently_oriented n r ≠ none ∧ n ∉ NC) →
      ∃ P2 W2,
        L.foldl (orientNeighbourStep r NC) (some (P, W)) = some (P2, W2)
        ∧ (∀ p, p ∈ P2 ↔ p ∈ P ∨ p ∈ L)
        ∧ (∀ w, w ∈ W2 ↔ w ∈ W ∨ ∃ n, n ∈ L ∧ w = resolveAgainst r n)
        ∧ (P.Nodup → P2.Nodup) ∧ (W.Nodup → W2.Nodup) := by
  intro L
  induction L with
  | nil =>
    intro P W _
    exact ⟨P, W, rfl, by simp, by simp, id, id⟩
  | cons n L ih =>
    intro P W h
    obtain ⟨hico, hnc⟩ := h n (List.mem_cons_self _ _)
    rcases hgot : is_consistently_oriented n r with _ | b
    · exact absurd hgot hico
    · have hstep : orientNeighbourStep r NC (some (P, W)) n
          = some (sadd P n, sadd W (resolveAgainst r n)) := by
        have hres : (if b = true then n else swap_orientation n)
            = resolveAgainst r n := by
          unfold resolveAgainst
          rw [hgot]
          cases b <;> rfl
        unfold orientNeighbourStep
        rw [hgot, ← hres]
        show (if n ∈ NC then
            if b = true then some (P, W) else none
          else some (sadd P n,
            sadd W (if b = true then n else swap_orientation n)))
          = some (sadd P n, sadd W (if b = true then n else swap_orientation n))
        rw [if_neg hnc]
      obtain ⟨P2, W2, heq, hP, hW, hndP, hndW⟩ :=
        ih (sadd P n) (sadd W (resolveAgainst r n))
          (fun m hm => h m (List.mem_cons_of_mem _ hm))
      refine ⟨P2, W2, ?_, ?_, ?_, ?_, ?_⟩
      · rw [List.foldl_cons, hstep]
        exact heq
      · intro p
        rw [hP p, mem_sadd]
        simp only [List.mem_cons]
        tauto
      · intro w
        rw [hW w, mem_sadd]
        simp only [List.mem_cons]
        constructor
        · rintro ((hw | hw) | ⟨m, hm, hw⟩)
          · exact Or.inl hw
          · exact Or.inr ⟨n, Or.inl rfl, hw⟩
          · exact Or.inr ⟨m, Or.inr hm, hw⟩
        · rintro (hw | ⟨m, (rfl | hm), hw⟩)
          · exact Or.inl (Or.inl hw)
          · exact Or.inl (Or.inr hw)
          · exact Or.inr ⟨m, hm, hw⟩
      · intro hnd
        exact hndP (sadd_nodup _ _ hnd)
      · intro hnd
        exact hndW (sadd_nodup _ _ hnd)

/-- Loop invariant of `orient_component`'s flood fill: `N` is the output set
so far, `P` the processed (stored) triangles, `W` the pending resolved
triples. -/
structure OInv (component : List Triangle) (et : Edge → List Triangle)
    (seed : Triangle) (N P W : List Triangle) : Prop where
  psub : ∀ p ∈ P, p ∈ component
  pnd : P.Nodup
  nnd : N.Nodup
  wnd : W.Nodup
  disj : ∀ x ∈ N, x ∉ W
  hres : ∀ x ∈ N ++ W, ∃ t, t ∈ P ∧ resolvedOf t x
  uniq : ∀ t ∈ component, ∀ x ∈ N ++ W, ∀ y ∈ N ++ W,
    resolvedOf t x → resolvedOf t y → x = y
  cov : ∀ p ∈ P, ∃ x ∈ N ++ W, resolvedOf p x
  closed : ∀ x ∈ N, ∀ e ∈ edges_from_triangle x, ∀ c ∈ et e,
    c ∈ component → c ∈ P
  seedP : seed ∈ P

/-- One outer iteration of the orientation flood fill preserves the
invariant, and either the collected neighbour list is empty and the state
only pops the worklist head, or strictly more of the component is
processed. -/
theorem orientStep (component : List Triangle) (et : Edge → List Triangle)
    (seed : Triangle) (hsort : ∀ t ∈ component, sorted3 t)
    (N P : List Triangle) (r : Triangle) (W' : List Triangle)
    (hinv : OInv component et seed N P (r :: W')) :
    ∃ P2 W2,
      (collectNeighbours component et P r).foldl
          (orientNeighbourStep r (sadd N r)) (some (P, W')) = some (P2, W2)
      ∧ OInv component et seed (sadd N r) P2 W2
      ∧ ((collectNeighbours component et P r = [] ∧ P2 = P ∧ W2 = W')
         ∨ (component.toFinset \ P2.toFinset).card
             < (component.toFinset \ P.toFinset).card) := by
  obtain ⟨t0, ht0P, ht0res⟩ := hinv.hres r (by simp)
  have ht0comp : t0 ∈ component := hinv.psub t0 ht0P
  have ht0sorted : sorted3 t0 := hsort t0 ht0comp
  have hLfacts : ∀ n ∈ collectNeighbours component et P r,
      n ∈ component ∧ n ∉ P ∧ sorted3 n := by
    intro n hn
    rw [mem_collectNeighbours] at hn
    exact ⟨hn.2.1, hn.2.2, hsort n hn.2.1⟩
  have hpre : ∀ n ∈ collectNeighbours component et P r,
      is_consistently_oriented n r ≠ none ∧ n ∉ sadd N r := by
    intro n hn
    obtain ⟨hncomp, hnP, hnsorted⟩ := hLfacts n hn
    have hnt0 : n ≠ t0 := fun h => hnP (h ▸ ht0P)
    refine ⟨ico_ne_none hnsorted ht0sorted ht0res hnt0, ?_⟩
    rw [mem_sadd]
    rintro (hnN | rfl)
    · obtain ⟨t2, ht2P, ht2res⟩ := hinv.hres n (List.mem_append_left _ hnN)
      have ht2sorted : sorted3 t2 := hsort t2 (hinv.psub t2 ht2P)
      have : n = t2 := resolved_sorted_mem ht2sorted ht2res hnsorted
      exact hnP (this ▸ ht2P)
    · exact hnt0 (resolved_sorted_mem ht0sorted ht0res hnsorted)
  obtain ⟨P2, W2, heq, hP, hW, hndP, hndW⟩ :=
    orientFold_ok r (sadd N r) (collectNeighbours component et P r) P W' hpre
  have hWnd : W'.Nodup := (List.nodup_cons.mp hinv.wnd).2
  have hrW2 : r ∉ W' := (List.nodup_cons.mp hinv.wnd).1
  have hrN : r ∉ N := fun h => hinv.disj r h (List.mem_cons_self _ _)
  have hmemN2 : ∀ x, x ∈ sadd N r ↔ x ∈ N ∨ x = r := mem_sadd N r
  have hclassify : ∀ x ∈ (sadd N r) ++ W2,
      x ∈ N ++ (r :: W')
        ∨ ∃ n, n ∈ collectNeighbours component et P r
            ∧ x = resolveAgainst r n := by
    intro x hx
    rcases List.mem_append.mp hx with hx | hx
    · rcases (hmemN2 x).mp hx with hx | rfl
      · exact Or.inl (List.mem_append_left _ hx)
      · exact Or.inl (List.mem_append_right _ (List.mem_cons_self _ _))
    · rcases (hW x).mp hx with hx | ⟨n, hn, hx⟩
      · exact Or.inl (List.mem_append_right _ (List.mem_cons_of_mem _ hx))
      · exact Or.inr ⟨n, hn, hx⟩
  have hnewres : ∀ t, t ∈ component →
      ∀ n, n ∈ collectNeighbours component et P r →
        resolvedOf t (resolveAgainst r n) → t = n := by
    intro t htc n hn hres2
    obtain ⟨-, -, hnsorted⟩ := hLfacts n hn
    exact resolved_unique (hsort t htc) hnsorted hres2
      (resolveAgainst_resolved r n)
  refine ⟨P2, W2, heq, ⟨?_, ?_, ?_, ?_, ?_, ?_, ?_, ?_, ?_, ?_⟩, ?_⟩
  · intro p hp
    rcases (hP p).mp hp with hp | hp
    · exact hinv.psub p hp
    · exact (hLfacts p hp).1
  · exact hndP hinv.pnd
  · exact sadd_nodup N r hinv.nnd
  · exact hndW hWnd
  · intro x hxN hxW
    rcases (hmemN2 x).mp hxN with hxN | rfl
    · rcases (hW x).mp hxW with hxW | ⟨n, hn, rfl⟩
      · exact hinv.disj x hxN (List.mem_cons_of_mem _ hxW)
      · obtain ⟨t2, ht2P, ht2res⟩ := hinv.hres _ (List.mem_append_left _ hxN)
        have ht2c : t2 ∈ component := hinv.psub t2 ht2P
        have : t2 = n := hnewres t2 ht2c n hn ht2res
        exact (hLfacts n hn).2.1 (this ▸ ht2P)
    · rcases (hW x).mp hxW with hxW2 | ⟨n, hn, hxr⟩
      · exact hrW2 hxW2
      · have : t0 = n := hnewres t0 ht0comp n hn (hxr ▸ ht0res)
        exact (hLfacts n hn).2.1 (this ▸ ht0P)
  · intro x hx
    rcases hclassify x hx with hx2 | ⟨n, hn, rfl⟩
    · obtain ⟨t2, ht2P, ht2res⟩ := hinv.hres x hx2
      exact ⟨t2, (hP t2).mpr (Or.inl ht2P), ht2res⟩
    · exact ⟨n, (hP n).mpr (Or.inr hn), resolveAgainst_resolved r n⟩
  · intro t htc x hx y hy hresx hresy
    rcases hclassify x hx with hxo | ⟨n1, hn1, rfl⟩
    · rcases hclassify y hy with hyo | ⟨n2, hn2, rfl⟩
      · exact hinv.uniq t htc x hxo y hyo hresx hresy
      · exfalso
        have htn2 : t = n2 := hnewres t htc n2 hn2 hresy
        obtain ⟨t2, ht2P, ht2res⟩ := hinv.hres x hxo
        have ht2sorted := hsort t2 (hinv.psub t2 ht2P)
        have htt2 : t = t2 :=
          resolved_unique (hsort t htc) ht2sorted hresx ht2res
        refine (hLfacts n2 hn2).2.1 ?_
        rw [← htn2, htt2]
        exact ht2P
    · rcases hclassify y hy with hyo | ⟨n2, hn2, rfl⟩
      · exfalso
        have htn1 : t = n1 := hnewres t htc n1 hn1 hresx
        obtain ⟨t2, ht2P, ht2res⟩ := hinv.hres y hyo
        have ht2sorted := hsort t2 (hinv.psub t2 ht2P)
        have htt2 : t = t2 :=
          resolved_unique (hsort t htc) ht2sorted hresy ht2res
        refine (hLfacts n1 hn1).2.1 ?_
        rw [← htn1, htt2]
        exact ht2P
      · have htn1 : t = n1 := hnewres t htc n1 hn1 hresx
        have htn2 : t = n2 := hnewres t htc n2 hn2 hresy
        rw [← htn1, ← htn2]
  · intro p hp
    rcases (hP p).mp hp with hp | hp
    · obtain ⟨x, hx, hxres⟩ := hinv.cov p hp
      refine ⟨x, ?_, hxres⟩
      rcases List.mem_append.mp hx with hx | hx
      · exact List.mem_append_left _ ((hmemN2 x).mpr (Or.inl hx))
      · rcases List.mem_cons.mp hx with rfl | hx
        · exact List.mem_append_left _ ((hmemN2 x).mpr (Or.inr rfl))
        · exact List.mem_append_right _ ((hW x).mpr (Or.inl hx))
    · exact ⟨resolveAgainst r p,
        List.mem_append_right _ ((hW _).mpr (Or.inr ⟨p, hp, rfl⟩)),
        resolveAgainst_resolved r p⟩
  · intro x hxN e he c hc hccomp
    rcases (hmemN2 x).mp hxN with hxN | rfl
    · exact (hP c).mpr (Or.inl (hinv.closed x hxN e he c hc hccomp))
    · by_cases hcP : c ∈ P
      · exact (hP c).mpr (Or.inl hcP)
      · refine (hP c).mpr (Or.inr ?_)
        rw [mem_collectNeighbours]
        exact ⟨⟨e, he, hc⟩, hccomp, hcP⟩
  · exact (hP seed).mpr (Or.inl hinv.seedP)
  · rcases hLnil : collectNeighbours component et P r with _ | ⟨n, L2⟩
    · left
      rw [hLnil] at heq
      simp only [List.foldl_nil] at heq
      have hpair := Option.some.inj heq
      exact ⟨rfl, (Prod.ext_iff.mp hpair).1.symm, (Prod.ext_iff.mp hpair).2.symm⟩
    · right
      have hn : n ∈ collectNeighbours component et P r := by
        rw [hLnil]; exact List.mem_cons_self _ _
      obtain ⟨hncomp, hnP, -⟩ := hLfacts n hn
      have hsub : component.toFinset \ P2.toFinset
          ⊆ component.toFinset \ P.toFinset := by
        intro x hx
        rw [Finset.mem_sdiff] at hx ⊢
        refine ⟨hx.1, fun hxP => hx.2 ?_⟩
        rw [List.mem_toFinset] at hxP ⊢
        exact (hP x).mpr (Or.inl hxP)
      refine Finset.card_lt_card (Finset.ssubset_def.mpr ⟨hsub, fun hsup => ?_⟩)
      have hnmem : n ∈ component.toFinset \ P.toFinset := by
        rw [Finset.mem_sdiff, List.mem_toFinset, List.mem_toFinset]
        exact ⟨hncomp, hnP⟩
      have hn2 := hsup hnmem
      rw [Finset.mem_sdiff, List.mem_toFinset, List.mem_toFinset] at hn2
      exact hn2.2 ((hP n).mpr (Or.inr hn))

theorem orientLoop_cons_eq (component : List Triangle)
    (et : Edge → List Triangle) (n : Nat) (N P : List Triangle) (r : Triangle)
    (W2 P3 W3 : List Triangle)
    (heq : (collectNeighbours component et P r).foldl
        (orientNeighbourStep r (sadd N r)) (some (P, W2)) = some (P3, W3)) :
    orientLoop component et (n + 1) N P (r :: W2)
      = orientLoop component et n (sadd N r) P3 W3 := by
  show (match (collectNeighbours component et P r).foldl
      (orientNeighbourStep r (sadd N r)) (some (P, W2)) with
    | none => OResult.failed
    | some (processed2, to_process2) =>
        orientLoop component et n (sadd N r) processed2 to_process2)
      = orientLoop component et n (sadd N r) P3 W3
  rw [heq]

/-- Under the invariant the orientation flood fill runs to completion (for
some fuel) and ends with an empty worklist, still satisfying the
invariant. -/
theorem orientLoop_ends (component : List Triangle) (et : Edge → List Triangle)
    (seed : Triangle) (hsort : ∀ t ∈ component, sorted3 t) :
    ∀ (a b : Nat) (N P W : List Triangle), OInv component et seed N P W →
      (component.toFinset \ P.toFinset).card ≤ a → W.length ≤ b →
      ∃ n N2 P2, orientLoop component et n N P W = OResult.done N2
        ∧ OInv component et seed N2 P2 [] := by
  intro a
  induction a with
  | zero =>
    intro b
    induction b with
    | zero =>
      intro N P W hinv hmu hnu
      have hW : W = [] := List.length_eq_zero.mp (Nat.le_zero.mp hnu)
      subst hW
      exact ⟨1, N, P, rfl, hinv⟩
    | succ b ihb =>
      intro N P W hinv hmu hnu
      cases W with
      | nil => exact ⟨1, N, P, rfl, hinv⟩
      | cons r W2 =>
        obtain ⟨P2, W3, heq, hinv2, hdich⟩ :=
          orientStep component et seed hsort N P r W2 hinv
        rcases hdich with ⟨hL, hP2, hW3⟩ | hlt
        · rw [hP2, hW3] at heq hinv2
          obtain ⟨n, N2, P3, hrun, hfin⟩ :=
            ihb (sadd N r) P W2 hinv2 hmu (Nat.le_of_succ_le_succ hnu)
          exact ⟨n + 1, N2, P3,
            by rw [orientLoop_cons_eq component et n N P r W2 P W2 heq]
               exact hrun, hfin⟩
        · exact absurd (lt_of_lt_of_le hlt hmu) (Nat.not_lt_zero _)
  | succ a iha =>
    intro b
    induction b with
    | zero =>
      intro N P W hinv hmu hnu
      have hW : W = [] := List.length_eq_zero.mp (Nat.le_zero.mp hnu)
      subst hW
      exact ⟨1, N, P, rfl, hinv⟩
    | succ b ihb =>
      intro N P W hinv hmu hnu
      cases W with
      | nil => exact ⟨1, N, P, rfl, hinv⟩
      | cons r W2 =>
        obtain ⟨P2, W3, heq, hinv2, hdich⟩ :=
          orientStep component et seed hsort N P r W2 hinv
        rcases hdich with ⟨hL, hP2, hW3⟩ | hlt
        · rw [hP2, hW3] at heq hinv2
          obtain ⟨n, N2, P3, hrun, hfin⟩ :=
            ihb (sadd N r) P W2 hinv2 hmu (Nat.le_of_succ_le_succ hnu)
          exact ⟨n + 1, N2, P3,
            by rw [orientLoop_cons_eq component et n N P r W2 P W2 heq]
               exact hrun, hfin⟩
        · obtain ⟨n, N2, P3, hrun, hfin⟩ :=
            iha W3.length (sadd N r) P2 W3 hinv2
              (Nat.le_of_lt_succ (lt_of_lt_of_le hlt hmu)) (le_refl _)
          exact ⟨n + 1, N2, P3,
            by rw [orientLoop_cons_eq component et n N P r W2 P2 W3 heq]
               exact hrun, hfin⟩

/-- C6: on a nonempty Component of canonically stored triangles —
edge-connected under the adjacency map, which every Component handed to
`orient_component` is by construction (flood-fill extraction, then weird
reattachment only across a shared edge) — `orient_component` (with
sufficient fuel) returns a set with exactly one resolved triple — the stored
triple or its first-two-swapped variant — per input triangle: none omitted,
nothing else included, and of equal cardinality. -/
theorem orient_component_exact_on_connected
    (component : List Triangle) (et : Edge → List Triangle)
    (hnd : component.Nodup) (hsort : ∀ t ∈ component, sorted3 t)
    (hnonempty : component ≠ [])
    (hconn : ∀ t1 ∈ component, ∀ t2 ∈ component,
      Relation.ReflTransGen (adjStep component et) t1 t2) :
    ∃ fuel S, orient_component component et fuel = OResult.done S
      ∧ (∀ t ∈ component, ∃ r, r ∈ S ∧ resolvedOf t r
          ∧ ∀ r2 ∈ S, resolvedOf t r2 → r2 = r)
      ∧ (∀ r ∈ S, ∃ t ∈ component, resolvedOf t r)
      ∧ S.Nodup ∧ S.length = component.length := by
  cases component with
  | nil => exact absurd rfl hnonempty
  | cons first rest =>
    have hfirstmem : first ∈ first :: rest := List.mem_cons_self _ _
    have hinv0 : OInv (first :: rest) et first [] [first] [first] := by
      refine ⟨?_, ?_, ?_, ?_, ?_, ?_, ?_, ?_, ?_, ?_⟩
      · intro p hp
        rw [List.mem_singleton] at hp
        exact List.mem_cons.mpr (Or.inl hp)
      · exact List.nodup_singleton _
      · exact List.nodup_nil
      · exact List.nodup_singleton _
      · intro x hx
        exact absurd hx (List.not_mem_nil x)
      · intro x hx
        simp only [List.nil_append, List.mem_singleton] at hx
        exact ⟨first, List.mem_singleton.mpr rfl, Or.inl hx⟩
      · intro t htc x hx y hy hrx hry
        simp only [List.nil_append, List.mem_singleton] at hx hy
        rw [hx, hy]
      · intro p hp
        rw [List.mem_singleton] at hp
        exact ⟨first, by simp, Or.inl hp.symm⟩
      · intro x hx
        exact absurd hx (List.not_mem_nil x)
      · exact List.mem_singleton.mpr rfl
    obtain ⟨n, N2, P2, hrun, hfin⟩ :=
      orientLoop_ends (first :: rest) et first hsort
        (((first :: rest).toFinset \ [first].toFinset).card) 1
        [] [first] [first] hinv0 (le_refl _) (by simp)
    have hcompP : ∀ t ∈ first :: rest, t ∈ P2 := by
      intro t ht
      have hreach := hconn first hfirstmem t ht
      clear ht
      induction hreach with
      | refl => exact hfin.seedP
      | tail hab hbc ih =>
        obtain ⟨hccomp, e, he, hce⟩ := hbc
        obtain ⟨x, hxmem, hxres⟩ := hfin.cov _ ih
        rw [List.append_nil] at hxmem
        have he2 := (edges_resolved_mem hxres e).mpr he
        exact hfin.closed x hxmem e he2 _ hce hccomp
    refine ⟨n, N2, hrun, ?_, ?_, hfin.nnd, ?_⟩
    · intro t ht
      obtain ⟨x, hxmem, hxres⟩ := hfin.cov t (hcompP t ht)
      rw [List.append_nil] at hxmem
      refine ⟨x, hxmem, hxres, ?_⟩
      intro r2 hr2 hres2
      exact hfin.uniq t ht r2 (by rw [List.append_nil]; exact hr2)
        x (by rw [List.append_nil]; exact hxmem) hres2 hxres
    · intro r hr
      obtain ⟨t, htP, htres⟩ := hfin.hres r (by rw [List.append_nil]; exact hr)
      exact ⟨t, hfin.psub t htP, htres⟩
    · have hPmem : ∀ x, x ∈ P2 ↔ x ∈ first :: rest :=
        fun x => ⟨hfin.psub x, hcompP x⟩
      have hlenP : P2.length = (first :: rest).length := by
        rw [← List.toFinset_card_of_nodup hfin.pnd,
            ← List.toFinset_card_of_nodup hnd]
        congr 1
        ext x
        simp only [List.mem_toFinset]
        exact hPmem x
      have hinjmem : ∀ x ∈ N2, origOf x ∈ P2 := by
        intro x hx
        obtain ⟨t, htP, htres⟩ :=
          hfin.hres x (by rw [List.append_nil]; exact hx)
        rw [origOf_resolved (hsort t (hfin.psub t htP)) htres]
        exact htP
      have hsurj : ∀ p ∈ P2, ∃ x ∈ N2, origOf x = p := by
        intro p hp
        obtain ⟨x, hxmem, hxres⟩ := hfin.cov p hp
        rw [List.append_nil] at hxmem
        exact ⟨x, hxmem, origOf_resolved (hsort p (hfin.psub p hp)) hxres⟩
      have hmnd : (N2.map origOf).Nodup := by
        refine List.Nodup.map_on ?_ hfin.nnd
        intro x hx y hy hxy
        obtain ⟨t, htP, htres⟩ :=
          hfin.hres x (by rw [List.append_nil]; exact hx)
        obtain ⟨t2, ht2P, ht2res⟩ :=
          hfin.hres y (by rw [List.append_nil]; exact hy)
        have h1 : origOf x = t :=
          origOf_resolved (hsort t (hfin.psub t htP)) htres
        have h2 : origOf y = t2 :=
          origOf_resolved (hsort t2 (hfin.psub t2 ht2P)) ht2res
        have htt : t = t2 := by rw [← h1, ← h2, hxy]
        have ht2res2 : resolvedOf t y := by rw [htt]; exact ht2res
        exact hfin.uniq t (hfin.psub t htP)
          x (by rw [List.append_nil]; exact hx)
          y (by rw [List.append_nil]; exact hy) htres ht2res2
      have hmapmem : ∀ p, p ∈ N2.map origOf ↔ p ∈ P2 := by
        intro p
        rw [List.mem_map]
        constructor
        · rintro ⟨x, hx, rfl⟩
          exact hinjmem x hx
        · intro hp
          obtain ⟨x, hx, he⟩ := hsurj p hp
          exact ⟨x, hx, he⟩
      have h1 : (N2.map origOf).length = N2.length := List.length_map _ _
      have h2 : (N2.map origOf).length = P2.length := by
        rw [← List.toFinset_card_of_nodup hmnd,
            ← List.toFinset_card_of_nodup hfin.pnd]
        congr 1
        ext x
        simp only [List.mem_toFinset]
        exact hmapmem x
      rw [← h1, h2, hlenP]

/-- Witness for C6 at a concrete one-triangle component. -/
theorem orient_component_exact_on_connected_witness :
    ∃ fuel S,
      orient_component [((0, 1, 2) : Triangle)] (buildET [(0, 1, 2)]) fuel
          = OResult.done S
        ∧ (∀ t ∈ [((0, 1, 2) : Triangle)], ∃ r, r ∈ S ∧ resolvedOf t r
            ∧ ∀ r2 ∈ S, resolvedOf t r2 → r2 = r)
        ∧ (∀ r ∈ S, ∃ t ∈ [((0, 1, 2) : Triangle)], resolvedOf t r)
        ∧ S.Nodup ∧ S.length = [((0, 1, 2) : Triangle)].length :=
  orient_component_exact_on_connected [(0, 1, 2)] (buildET [(0, 1, 2)])
    (by decide) (by decide) (by decide)
    (fun t1 h1 t2 h2 => by
      rw [List.mem_singleton] at h1 h2
      subst h1
      subst h2
      exact Relation.ReflTransGen.refl)

/-- The pushes of one `get_connected_component` iteration: for each edge of
the popped triangle, in order, the incident triangles not yet in the
component that are regular.  Python appends to and pops from the tail of
`to_process`; the model keeps that stack reversed (head = top). -/
def gccPushes (regular_triangles : List Triangle)
    (edge_triangle : Edge → List Triangle) (component : List Triangle)
    (processing : Triangle) : List Triangle :=
  (edges_from_triangle processing).flatMap
    (fun e => (edge_triangle e).filter
      (fun t => decide (t ∉ component ∧ t ∈ regular_triangles)))

/-- The `while to_process` loop of `get_connected_component`, with fuel:
pop, add to the component, push unvisited regular neighbours. -/
def gccLoop (regular_triangles : List Triangle)
    (edge_triangle : Edge → List Triangle) :
    Nat → List Triangle → List Triangle → Option (List Triangle)
  | 0, _, _ => none
  | _ + 1, component, [] => some component
  | fuel + 1, component, processing :: stack =>
      gccLoop regular_triangles edge_triangle fuel (sadd component processing)
        ((gccPushes regular_triangles edge_triangle
            (sadd component processing) processing).reverse ++ stack)

/-- `get_connected_component` from the source. -/
def get_connected_component (triangle : Triangle)
    (edge_triangle : Edge → List Triangle)
    (regular_triangles : List Triangle) (fuel : Nat) :
    Option (List Triangle) :=
  gccLoop regular_triangles edge_triangle fuel [] [triangle]

theorem mem_gccPushes (regular_triangles : List Triangle)
    (et : Edge → List Triangle) (component : List Triangle)
    (p t : Triangle) :
    t ∈ gccPushes regular_triangles et component p ↔
      (∃ e ∈ edges_from_triangle p, t ∈ et e)
        ∧ t ∉ component ∧ t ∈ regular_triangles := by
  unfold gccPushes
  simp only [List.mem_flatMap, List.mem_filter, decide_eq_true_eq]
  constructor
  · rintro ⟨e, he, ht, hc⟩
    exact ⟨⟨e, he, ht⟩, hc⟩
  · rintro ⟨⟨e, he, ht⟩, hc⟩
    exact ⟨e, he, ht, hc⟩

/-- Invariant of the component flood fill. -/
structure GInv (regular : List Triangle) (et : Edge → List Triangle)
    (seed : Triangle) (comp stack : List Triangle) : Prop where
  sound : ∀ x ∈ comp ++ stack,
    Relation.ReflTransGen (adjStep regular et) seed x
  closed : ∀ u ∈ comp, ∀ v, adjStep regular et u v → v ∈ comp ∨ v ∈ stack
  inR : ∀ x ∈ comp ++ stack, x ∈ regular ∨ x = seed
  seedIn : seed ∈ comp ∨ seed ∈ stack

theorem gccPreserve (regular : List Triangle) (et : Edge → List Triangle)
    (seed : Triangle) (comp : List Triangle) (p : Triangle)
    (stack : List Triangle)
    (hinv : GInv regular et seed comp (p :: stack)) :
    GInv regular et seed (sadd comp p)
      ((gccPushes regular et (sadd comp p) p).reverse ++ stack) := by
  obtain ⟨hsound, hclosed, hinR, hseed⟩ := hinv
  have hps : Relation.ReflTransGen (adjStep regular et) seed p :=
    hsound p (List.mem_append_right _ (List.mem_cons_self _ _))
  have hpushfacts : ∀ t ∈ gccPushes regular et (sadd comp p) p,
      adjStep regular et p t := by
    intro t ht
    rw [mem_gccPushes] at ht
    obtain ⟨⟨e, he, hte⟩, hnc, hreg⟩ := ht
    exact ⟨hreg, e, he, hte⟩
  refine ⟨?_, ?_, ?_, ?_⟩
  · intro x hx
    rcases List.mem_append.mp hx with hx | hx
    · rcases (mem_sadd comp p x).mp hx with hx | hxp
      · exact hsound x (List.mem_append_left _ hx)
      · rw [hxp]; exact hps
    · rcases List.mem_append.mp hx with hx | hx
      · rw [List.mem_reverse] at hx
        exact hps.tail (hpushfacts x hx)
      · exact hsound x
          (List.mem_append_right _ (List.mem_cons_of_mem _ hx))
  · intro u hu v hstep
    rcases (mem_sadd comp p u).mp hu with hu | hup
    · rcases hclosed u hu v hstep with hv | hv
      · exact Or.inl (sadd_subset comp p hv)
      · rcases List.mem_cons.mp hv with hvp | hv
        · exact Or.inl ((mem_sadd comp p v).mpr (Or.inr hvp))
        · exact Or.inr (List.mem_append_right _ hv)
    · by_cases hvc : v ∈ sadd comp p
      · exact Or.inl hvc
      · right
        apply List.mem_append_left
        rw [List.mem_reverse, mem_gccPushes]
        obtain ⟨hreg, e, he, hve⟩ := hstep
        rw [hup] at he
        exact ⟨⟨e, he, hve⟩, hvc, hreg⟩
  · intro x hx
    rcases List.mem_append.mp hx with hx | hx
    · rcases (mem_sadd comp p x).mp hx with hx | hxp
      · exact hinR x (List.mem_append_left _ hx)
      · refine hinR x ?_
        rw [hxp]
        exact List.mem_append_right _ (List.mem_cons_self _ _)
    · rcases List.mem_append.mp hx with hx | hx
      · rw [List.mem_reverse, mem_gccPushes] at hx
        exact Or.inl hx.2.2
      · exact hinR x
          (List.mem_append_right _ (List.mem_cons_of_mem _ hx))
  · rcases hseed with hs | hs
    · exact Or.inl (sadd_subset comp p hs)
    · rcases List.mem_cons.mp hs with hsp | hs
      · exact Or.inl ((mem_sadd comp p seed).mpr (Or.inr hsp))
      · exact Or.inr (List.mem_append_right _ hs)

theorem gccFinal (regular : List Triangle) (et : Edge → List Triangle)
    (seed : Triangle) (comp : List Triangle)
    (hinv : GInv regular et seed comp []) :
    ∀ x, x ∈ comp ↔ Relation.ReflTransGen (adjStep regular et) seed x := by
  obtain ⟨hsound, hclosed, hinR, hseed⟩ := hinv
  have hseedc : seed ∈ comp := by
    rcases hseed with h | h
    · exact h
    · exact absurd h (List.not_mem_nil _)
  intro x
  constructor
  · intro hx
    exact hsound x (List.mem_append_left _ hx)
  · intro hx
    induction hx with
    | refl => exact hseedc
    | tail hab hbc ih =>
      rcases hclosed _ ih _ hbc with h | h
      · exact h
      · exact absurd h (List.not_mem_nil _)

/-- Termination measure component on the stack: positive only while the top
is already in the component. -/
def gccFlag (comp : List Triangle) : List Triangle → Nat
  | [] => 0
  | x :: s => if x ∈ comp then s.length + 1 else 0

theorem gccFlag_le_length (comp : List Triangle) :
    ∀ s : List Triangle, gccFlag comp s ≤ s.length := by
  intro s
  cases s with
  | nil => exact le_refl _
  | cons x s =>
    show (if x ∈ comp then s.length + 1 else 0) ≤ s.length + 1
    split
    · exact le_refl _
    · exact Nat.zero_le _

theorem gccFlag_cons (comp : List Triangle) (x : Triangle)
    (s : List Triangle) :
    gccFlag comp (x :: s) = if x ∈ comp then s.length + 1 else 0 := rfl

theorem sadd_eq_of_mem {α : Type} [DecidableEq α] {l : List α} {a : α}
    (h : a ∈ l) : sadd l a = l := by
  unfold sadd
  rw [if_pos h]

/-- Under the invariant the component flood fill runs to completion for some
fuel, ending in a state that still satisfies the invariant. -/
theorem gccLoop_ends (regular : List Triangle) (et : Edge → List Triangle)
    (seed : Triangle) :
    ∀ (a b : Nat) (comp stack : List Triangle),
      GInv regular et seed comp stack →
      ((insert seed regular.toFinset) \ comp.toFinset).card ≤ a →
      gccFlag comp stack ≤ b →
      ∃ fuel result, gccLoop regular et fuel comp stack = some result
        ∧ GInv regular et seed result [] := by
  intro a
  induction a with
  | zero =>
    intro b
    induction b with
    | zero =>
      intro comp stack hinv hmu hnu
      cases stack with
      | nil => exact ⟨1, comp, rfl, hinv⟩
      | cons p stack2 =>
        by_cases hpc : p ∈ comp
        · exfalso
          rw [gccFlag_cons, if_pos hpc] at hnu
          omega
        · exfalso
          have hpR : p ∈ insert seed regular.toFinset := by
            rcases hinv.inR p
                (List.mem_append_right _ (List.mem_cons_self _ _)) with h | h
            · exact Finset.mem_insert_of_mem (List.mem_toFinset.mpr h)
            · rw [h]; exact Finset.mem_insert_self _ _
          have : p ∈ insert seed regular.toFinset \ comp.toFinset := by
            rw [Finset.mem_sdiff, List.mem_toFinset]
            exact ⟨hpR, hpc⟩
          have := Finset.card_pos.mpr ⟨p, this⟩
          omega
    | succ b ihb =>
      intro comp stack hinv hmu hnu
      cases stack with
      | nil => exact ⟨1, comp, rfl, hinv⟩
      | cons p stack2 =>
        have hinv2 := gccPreserve regular et seed comp p stack2 hinv
        by_cases hpc : p ∈ comp
        · rw [sadd_eq_of_mem hpc] at hinv2
          rcases hpush : gccPushes regular et comp p with _ | ⟨q, rest⟩
          · rw [hpush] at hinv2
            simp only [List.reverse_nil, List.nil_append] at hinv2
            obtain ⟨fuel, result, hrun, hfin⟩ :=
              ihb comp stack2 hinv2 hmu
                (by
                  have h1 := gccFlag_le_length comp stack2
                  rw [gccFlag_cons, if_pos hpc] at hnu
                  omega)
            refine ⟨fuel + 1, result, ?_, hfin⟩
            show gccLoop regular et fuel (sadd comp p)
              ((gccPushes regular et (sadd comp p) p).reverse ++ stack2)
                = some result
            rw [sadd_eq_of_mem hpc, hpush]
            simpa using hrun
          · rcases hrev : (gccPushes regular et comp p).reverse
                with _ | ⟨h0, tl⟩
            · rw [hpush] at hrev
              simp at hrev
            · have hh0 : h0 ∈ gccPushes regular et comp p := by
                rw [← List.mem_reverse, hrev]
                exact List.mem_cons_self _ _
              have hh0nc : h0 ∉ comp := by
                rw [mem_gccPushes] at hh0
                exact hh0.2.1
              rw [hrev] at hinv2
              obtain ⟨fuel, result, hrun, hfin⟩ :=
                ihb comp (h0 :: (tl ++ stack2)) (by simpa using hinv2)
                  hmu
                  (by
                    rw [gccFlag_cons, if_neg hh0nc]
                    exact Nat.zero_le _)
              refine ⟨fuel + 1, result, ?_, hfin⟩
              show gccLoop regular et fuel (sadd comp p)
                ((gccPushes regular et (sadd comp p) p).reverse ++ stack2)
                  = some result
              rw [sadd_eq_of_mem hpc, hrev]
              simpa using hrun
        · exfalso
          have hpR : p ∈ insert seed regular.toFinset := by
            rcases hinv.inR p
                (List.mem_append_right _ (List.mem_cons_self _ _)) with h | h
            · exact Finset.mem_insert_of_mem (List.mem_toFinset.mpr h)
            · rw [h]; exact Finset.mem_insert_self _ _
          have : p ∈ insert seed regular.toFinset \ comp.toFinset := by
            rw [Finset.mem_sdiff, List.mem_toFinset]
            exact ⟨hpR, hpc⟩
          have := Finset.card_pos.mpr ⟨p, this⟩
          omega
  | succ a iha =>
    intro b
    induction b with
    | zero =>
      intro comp stack hinv hmu hnu
      cases stack with
      | nil => exact ⟨1, comp, rfl, hinv⟩
      | cons p stack2 =>
        by_cases hpc : p ∈ comp
        · exfalso
          rw [gccFlag_cons, if_pos hpc] at hnu
          omega
        · have hinv2 := gccPreserve regular et seed comp p stack2 hinv
          have hpR : p ∈ insert seed regular.toFinset := by
            rcases hinv.inR p
                (List.mem_append_right _ (List.mem_cons_self _ _)) with h | h
            · exact Finset.mem_insert_of_mem (List.mem_toFinset.mpr h)
            · rw [h]; exact Finset.mem_insert_self _ _
          have hmu2 : ((insert seed regular.toFinset)
              \ (sadd comp p).toFinset).card ≤ a := by
            have hsub : insert seed regular.toFinset \ (sadd comp p).toFinset
                ⊆ insert seed regular.toFinset \ comp.toFinset := by
              intro x hx
              rw [Finset.mem_sdiff] at hx ⊢
              refine ⟨hx.1, fun hxc => hx.2 ?_⟩
              rw [List.mem_toFinset] at hxc ⊢
              exact sadd_subset comp p hxc
            have hss : insert seed regular.toFinset \ (sadd comp p).toFinset
                ⊂ insert seed regular.toFinset \ comp.toFinset := by
              refine Finset.ssubset_def.mpr ⟨hsub, fun hsup => ?_⟩
              have hpmem : p ∈ insert seed regular.toFinset \ comp.toFinset := by
                rw [Finset.mem_sdiff, List.mem_toFinset]
                exact ⟨hpR, hpc⟩
              have hp2 := hsup hpmem
              rw [Finset.mem_sdiff, List.mem_toFinset] at hp2
              exact hp2.2 ((mem_sadd comp p p).mpr (Or.inr rfl))
            have := Finset.card_lt_card hss
            omega
          obtain ⟨fuel, result, hrun, hfin⟩ :=
            iha (gccFlag (sadd comp p)
                ((gccPushes regular et (sadd comp p) p).reverse ++ stack2))
              (sadd comp p)
              ((gccPushes regular et (sadd comp p) p).reverse ++ stack2)
              hinv2 hmu2 (le_refl _)
          exact ⟨fuel + 1, result, hrun, hfin⟩
    | succ b ihb =>
      intro comp stack hinv hmu hnu
      cases stack with
      | nil => exact ⟨1, comp, rfl, hinv⟩
      | cons p stack2 =>
        have hinv2 := gccPreserve regular et seed comp p stack2 hinv
        by_cases hpc : p ∈ comp
        · rw [sadd_eq_of_mem hpc] at hinv2
          rcases hpush : gccPushes regular et comp p with _ | ⟨q, rest⟩
          · rw [hpush] at hinv2
            simp only [List.reverse_nil, List.nil_append] at hinv2
            obtain ⟨fuel, result, hrun, hfin⟩ :=
              ihb comp stack2 hinv2 hmu
                (by
                  have h1 := gccFlag_le_length comp stack2
                  rw [gccFlag_cons, if_pos hpc] at hnu
                  omega)
            refine ⟨fuel + 1, result, ?_, hfin⟩
            show gccLoop regular et fuel (sadd comp p)
              ((gccPushes regular et (sadd comp p) p).reverse ++ stack2)
                = some result
            rw [sadd_eq_of_mem hpc, hpush]
            simpa using hrun
          · rcases hrev : (gccPushes regular et comp p).reverse
                with _ | ⟨h0, tl⟩
            · rw [hpush] at hrev
              simp at hrev
            · have hh0 : h0 ∈ gccPushes regular et comp p := by
                rw [← List.mem_reverse, hrev]
                exact List.mem_cons_self _ _
              have hh0nc : h0 ∉ comp := by
                rw [mem_gccPushes] at hh0
                exact hh0.2.1
              rw [hrev] at hinv2
              obtain ⟨fuel, result, hrun, hfin⟩ :=
                ihb comp (h0 :: (tl ++ stack2)) (by simpa using hinv2)
                  hmu
                  (by
                    rw [gccFlag_cons, if_neg hh0nc]
                    exact Nat.zero_le _)
              refine ⟨fuel + 1, result, ?_, hfin⟩
              show gccLoop regular et fuel (sadd comp p)
                ((gccPushes regular et (sadd comp p) p).reverse ++ stack2)
                  = some result
              rw [sadd_eq_of_mem hpc, hrev]
              simpa using hrun
        · have hpR : p ∈ insert seed regular.toFinset := by
            rcases hinv.inR p
                (List.mem_append_right _ (List.mem_cons_self _ _)) with h | h
            · exact Finset.mem_insert_of_mem (List.mem_toFinset.mpr h)
            · rw [h]; exact Finset.mem_insert_self _ _
          have hmu2 : ((insert seed regular.toFinset)
              \ (sadd comp p).toFinset).card ≤ a := by
            have hsub : insert seed regular.toFinset \ (sadd comp p).toFinset
                ⊆ insert seed regular.toFinset \ comp.toFinset := by
              intro x hx
              rw [Finset.mem_sdiff] at hx ⊢
              refine ⟨hx.1, fun hxc => hx.2 ?_⟩
              rw [List.mem_toFinset] at hxc ⊢
              exact sadd_subset comp p hxc
            have hss : insert seed regular.toFinset \ (sadd comp p).toFinset
                ⊂ insert seed regular.toFinset \ comp.toFinset := by
              refine Finset.ssubset_def.mpr ⟨hsub, fun hsup => ?_⟩
              have hpmem : p ∈ insert seed regular.toFinset \ comp.toFinset := by
                rw [Finset.mem_sdiff, List.mem_toFinset]
                exact ⟨hpR, hpc⟩
              have hp2 := hsup hpmem
              rw [Finset.mem_sdiff, List.mem_toFinset] at hp2
              exact hp2.2 ((mem_sadd comp p p).mpr (Or.inr rfl))
            have := Finset.card_lt_card hss
            omega
          obtain ⟨fuel, result, hrun, hfin⟩ :=
            iha (gccFlag (sadd comp p)
                ((gccPushes regular et (sadd comp p) p).reverse ++ stack2))
              (sadd comp p)
              ((gccPushes regular et (sadd comp p) p).reverse ++ stack2)
              hinv2 hmu2 (le_refl _)
          exact ⟨fuel + 1, result, hrun, hfin⟩

theorem gccLoop_mono (regular : List Triangle) (et : Edge → List Triangle) :
    ∀ (f k : Nat) (comp stack res : List Triangle),
      gccLoop regular et f comp stack = some res →
      gccLoop regular et (f + k) comp stack = some res := by
  intro f
  induction f with
  | zero =>
    intro k comp stack res h
    exact Option.noConfusion h
  | succ f ih =>
    intro k comp stack res h
    have harith : f + 1 + k = (f + k) + 1 := by omega
    rw [harith]
    cases stack with
    | nil => exact h
    | cons p stack2 => exact ih k _ _ res h

/-- Any successful run of the flood fill preserves the invariant through to
the empty-worklist final state. -/
theorem gccLoop_inv (regular : List Triangle) (et : Edge → List Triangle)
    (seed : Triangle) :
    ∀ (fuel : Nat) (comp stack res : List Triangle),
      gccLoop regular et fuel comp stack = some res →
      GInv regular et seed comp stack → GInv regular et seed res [] := by
  intro fuel
  induction fuel with
  | zero =>
    intro comp stack res h
    exact absurd h Option.noConfusion
  | succ fuel ih =>
    intro comp stack res h hinv
    cases stack with
    | nil =>
      obtain rfl := Option.some.inj h
      exact hinv
    | cons p stack2 =>
      exact ih _ _ res h (gccPreserve regular et seed comp p stack2 hinv)

/-- The seed-spawning iteration of `get_connected_components`: triangles
already processed are skipped, the rest spawn a flood fill whose result
extends `processed` and is appended to the component list. -/
def gccsGo (regular_triangles : List Triangle)
    (edge_triangle : Edge → List Triangle) (fuel : Nat) :
    List Triangle → List Triangle → List (List Triangle) →
      Option (List (List Triangle))
  | [], _, components => some components
  | t :: ts, processed, components =>
      if t ∈ processed then
        gccsGo regular_triangles edge_triangle fuel ts processed components
      else
        match get_connected_component t edge_triangle regular_triangles fuel with
        | none => none
        | some component =>
            gccsGo regular_triangles edge_triangle fuel ts
              (processed ++ component) (components ++ [component])

/-- `get_connected_components` from the source, with fuel for the inner
flood fills. -/
def get_connected_components (regular_triangles : List Triangle)
    (edge_triangle : Edge → List Triangle) (fuel : Nat) :
    Option (List (List Triangle)) :=
  gccsGo regular_triangles edge_triangle fuel regular_triangles [] []

theorem gccsGo_cons (regular : List Triangle) (et : Edge → List Triangle)
    (fuel : Nat) (t : Triangle) (ts processed : List Triangle)
    (comps : List (List Triangle)) :
    gccsGo regular et fuel (t :: ts) processed comps
      = if t ∈ processed then gccsGo regular et fuel ts processed comps
        else match get_connected_component t et regular fuel with
          | none => none
          | some component => gccsGo regular et fuel ts
              (processed ++ component) (comps ++ [component]) := rfl

theorem gccsGo_mono (regular : List Triangle) (et : Edge → List Triangle) :
    ∀ (ts processed : List Triangle) (comps : List (List Triangle))
      (f k : Nat) (res : List (List Triangle)),
      gccsGo regular et f ts processed comps = some res →
      gccsGo regular et (f + k) ts processed comps = some res := by
  intro ts
  induction ts with
  | nil =>
    intro processed comps f k res h
    exact h
  | cons t ts ih =>
    intro processed comps f k res h
    rw [gccsGo_cons] at h ⊢
    by_cases htp : t ∈ processed
    · rw [if_pos htp] at h ⊢
      exact ih processed comps f k res h
    · rw [if_neg htp] at h ⊢
      cases hgcc : get_connected_component t et regular f with
      | none =>
        rw [hgcc] at h
        exact Option.noConfusion h
      | some c =>
        rw [hgcc] at h
        have hgcc2 : get_connected_component t et regular (f + k) = some c :=
          gccLoop_mono regular et f k [] [t] c hgcc
        rw [hgcc2]
        exact ih _ _ f k res h

theorem gccInv_init (regular : List Triangle) (et : Edge → List Triangle)
    (t : Triangle) : GInv regular et t [] [t] := by
  refine ⟨?_, ?_, ?_, Or.inr (List.mem_singleton.mpr rfl)⟩
  · intro x hx
    simp only [List.nil_append, List.mem_singleton] at hx
    rw [hx]
  · intro u hu
    exact absurd hu (List.not_mem_nil u)
  · intro x hx
    simp only [List.nil_append, List.mem_singleton] at hx
    exact Or.inr hx

theorem gccs_terminates (regular : List Triangle)
    (et : Edge → List Triangle) :
    ∀ (ts processed : List Triangle) (comps : List (List Triangle)),
      ∃ fuel res, gccsGo regular et fuel ts processed comps = some res := by
  intro ts
  induction ts with
  | nil =>
    intro processed comps
    exact ⟨0, comps, rfl⟩
  | cons t ts ih =>
    intro processed comps
    by_cases htp : t ∈ processed
    · obtain ⟨f, res, h⟩ := ih processed comps
      exact ⟨f, res, by rw [gccsGo_cons, if_pos htp]; exact h⟩
    · obtain ⟨f1, c, hrun, hfin⟩ :=
        gccLoop_ends regular et t
          ((insert t regular.toFinset \ ([] : List Triangle).toFinset).card)
          (gccFlag [] [t]) [] [t] (gccInv_init regular et t)
          (le_refl _) (le_refl _)
      obtain ⟨f0, res, h0⟩ := ih (processed ++ c) (comps ++ [c])
      refine ⟨max f1 f0, res, ?_⟩
      rw [gccsGo_cons, if_neg htp]
      have hc2 : get_connected_component t et regular (max f1 f0) = some c := by
        have harith : max f1 f0 = f1 + (max f1 f0 - f1) := by omega
        rw [harith]
        exact gccLoop_mono regular et f1 _ [] [t] c hrun
      rw [hc2]
      have harith : max f1 f0 = f0 + (max f1 f0 - f0) := by omega
      rw [harith]
      exact gccsGo_mono regular et ts (processed ++ c) (comps ++ [c])
        f0 _ res h0

/-- Reachability through regular triangles is symmetric when the adjacency
map is coherent (`h1`: listed triangles own the edge) and complete (`h2`:
every regular triangle is listed on each of its edges). -/
theorem reach_symm (regular : List Triangle) (et : Edge → List Triangle)
    (h1 : ∀ (e : Edge) (t : Triangle), t ∈ et e → e ∈ edges_from_triangle t)
    (h2 : ∀ t ∈ regular, ∀ e ∈ edges_from_triangle t, t ∈ et e) :
    ∀ u v, Relation.ReflTransGen (adjStep regular et) u v →
      u ∈ regular →
      v ∈ regular ∧ Relation.ReflTransGen (adjStep regular et) v u := by
  intro u v h hu
  induction h with
  | refl => exact ⟨hu, Relation.ReflTransGen.refl⟩
  | tail hab hbc ih =>
    obtain ⟨hbreg, hba⟩ := ih
    obtain ⟨hcreg, e, he, hce⟩ := hbc
    refine ⟨hcreg, Relation.ReflTransGen.trans
      (Relation.ReflTransGen.single ⟨hbreg, e, h1 e _ hce, h2 _ hbreg e he⟩)
      hba⟩

theorem gccsGo_spec (regular : List Triangle) (et : Edge → List Triangle)
    (h1 : ∀ (e : Edge) (t : Triangle), t ∈ et e → e ∈ edges_from_triangle t)
    (h2 : ∀ t ∈ regular, ∀ e ∈ edges_from_triangle t, t ∈ et e) :
    ∀ (ts processed : List Triangle) (comps : List (List Triangle))
      (fuel : Nat) (res : List (List Triangle)),
      gccsGo regular et fuel ts processed comps = some res →
      (∀ t ∈ ts, t ∈ regular) →
      (∀ x, x ∈ processed ↔ ∃ c, c ∈ comps ∧ x ∈ c) →
      (∀ c ∈ comps, ∃ s, s ∈ regular ∧ ∀ x, x ∈ c ↔
        Relation.ReflTransGen (adjStep regular et) s x) →
      (∀ x, comps.countP (fun c => decide (x ∈ c)) ≤ 1) →
      ((∀ c ∈ res, ∃ s, s ∈ regular ∧ ∀ x, x ∈ c ↔
          Relation.ReflTransGen (adjStep regular et) s x)
        ∧ (∀ x, res.countP (fun c => decide (x ∈ c)) ≤ 1)
        ∧ (∀ t ∈ ts, ∃ c, c ∈ res ∧ t ∈ c)
        ∧ (∀ c ∈ comps, c ∈ res)) := by
  intro ts
  induction ts with
  | nil =>
    intro processed comps fuel res hrun hts hproc hcomp hcount
    obtain rfl := Option.some.inj hrun
    refine ⟨hcomp, hcount, ?_, fun c hc => hc⟩
    intro x hx
    exact absurd hx (List.not_mem_nil x)
  | cons t ts ih =>
    intro processed comps fuel res hrun hts hproc hcomp hcount
    rw [gccsGo_cons] at hrun
    by_cases htp : t ∈ processed
    · rw [if_pos htp] at hrun
      obtain ⟨hres1, hres2, hres3, hres4⟩ :=
        ih processed comps fuel res hrun
          (fun x hx => hts x (List.mem_cons_of_mem _ hx)) hproc hcomp hcount
      refine ⟨hres1, hres2, ?_, hres4⟩
      intro x hx
      rcases List.mem_cons.mp hx with hxt | hx
      · obtain ⟨c, hc, htc⟩ := (hproc t).mp htp
        refine ⟨c, hres4 c hc, ?_⟩
        rw [hxt]
        exact htc
      · exact hres3 x hx
    · rw [if_neg htp] at hrun
      cases hgcc : get_connected_component t et regular fuel with
      | none =>
        rw [hgcc] at hrun
        exact Option.noConfusion hrun
      | some c =>
        rw [hgcc] at hrun
        have htreg : t ∈ regular := hts t (List.mem_cons_self _ _)
        have hchar := gccFinal regular et t c
          (gccLoop_inv regular et t fuel [] [t] c hgcc
            (gccInv_init regular et t))
        have hdisjc : ∀ x ∈ c, ∀ c2 ∈ comps, x ∉ c2 := by
          intro x hx c2 hc2 hxc2
          obtain ⟨s, hs, hcharc2⟩ := hcomp c2 hc2
          have hrtx := (hchar x).mp hx
          have hback := reach_symm regular et h1 h2 t x hrtx htreg
          have hst : Relation.ReflTransGen (adjStep regular et) s t :=
            Relation.ReflTransGen.trans ((hcharc2 x).mp hxc2) hback.2
          exact htp ((hproc t).mpr ⟨c2, hc2, (hcharc2 t).mpr hst⟩)
        obtain ⟨hres1, hres2, hres3, hres4⟩ :=
          ih (processed ++ c) (comps ++ [c]) fuel res hrun
            (fun x hx => hts x (List.mem_cons_of_mem _ hx))
            (by
              intro x
              rw [List.mem_append, hproc x]
              constructor
              · rintro (⟨c2, hc2, hx⟩ | hx)
                · exact ⟨c2, List.mem_append_left _ hc2, hx⟩
                · exact ⟨c, List.mem_append_right _
                    (List.mem_singleton.mpr rfl), hx⟩
              · rintro ⟨c2, hc2, hx⟩
                rcases List.mem_append.mp hc2 with hc2 | hc2
                · exact Or.inl ⟨c2, hc2, hx⟩
                · rw [List.mem_singleton] at hc2
                  right
                  rw [← hc2]
                  exact hx)
            (by
              intro c2 hc2
              rcases List.mem_append.mp hc2 with hc2 | hc2
              · exact hcomp c2 hc2
              · rw [List.mem_singleton] at hc2
                refine ⟨t, htreg, ?_⟩
                rw [hc2]
                exact hchar)
            (by
              intro x
              rw [List.countP_append]
              by_cases hxc : x ∈ c
              · have hz : comps.countP (fun c2 => decide (x ∈ c2)) = 0 := by
                  rw [List.countP_eq_zero]
                  intro c2 hc2
                  simp only [decide_eq_true_eq]
                  exact hdisjc x hxc c2 hc2
                have ho : List.countP (fun c2 => decide (x ∈ c2)) [c] ≤ 1 := by
                  simp only [List.countP_cons, List.countP_nil]
                  split <;> omega
                omega
              · have ho : List.countP (fun c2 => decide (x ∈ c2)) [c] = 0 := by
                  simp [List.countP_cons, hxc]
                have := hcount x
                omega)
        refine ⟨hres1, hres2, ?_, fun c2 hc2 =>
          hres4 c2 (List.mem_append_left _ hc2)⟩
        intro x hx
        rcases List.mem_cons.mp hx with hxt | hx
        · refine ⟨c, hres4 c (List.mem_append_right _
            (List.mem_singleton.mpr rfl)), ?_⟩
          rw [hxt]
          exact (hchar t).mpr Relation.ReflTransGen.refl
        · exact hres3 x hx

/-- C4: under the adjacency-map well-formedness of the data model, the
components returned by `get_connected_components` partition the regular set
exactly: every regular triangle lies in exactly one returned component, and
each component is precisely the set of triangles reachable from its seed
through regular triangles via shared edges. -/
theorem get_connected_components_partition (regular_triangles : List Triangle)
    (edge_triangle : Edge → List Triangle)
    (h1 : ∀ (e : Edge) (t : Triangle), t ∈ edge_triangle e →
      e ∈ edges_from_triangle t)
    (h2 : ∀ t ∈ regular_triangles, ∀ e ∈ edges_from_triangle t,
      t ∈ edge_triangle e) :
    ∃ fuel comps,
      get_connected_components regular_triangles edge_triangle fuel
          = some comps
      ∧ (∀ t ∈ regular_triangles,
          comps.countP (fun c => decide (t ∈ c)) = 1)
      ∧ (∀ c ∈ comps, ∃ s, s ∈ regular_triangles ∧ ∀ x, x ∈ c ↔
          Relation.ReflTransGen
            (adjStep regular_triangles edge_triangle) s x) := by
  obtain ⟨fuel, res, hrun⟩ :=
    gccs_terminates regular_triangles edge_triangle regular_triangles [] []
  obtain ⟨hA, hB, hC, -⟩ :=
    gccsGo_spec regular_triangles edge_triangle h1 h2
      regular_triangles [] [] fuel res hrun (fun t ht => ht)
      (by simp) (by simp) (by simp)
  refine ⟨fuel, res, hrun, ?_, hA⟩
  intro t ht
  obtain ⟨c, hc, htc⟩ := hC t ht
  have hge : 0 < res.countP (fun c => decide (t ∈ c)) := by
    rw [List.countP_pos_iff]
    exact ⟨c, hc, by simpa using htc⟩
  have := hB t
  omega

/-- The closed tetrahedral shell: four triangles, each edge shared by
exactly two of them. -/
def tetraList : List Triangle :=
  [(0, 1, 2), (0, 1, 3), (0, 2, 3), (1, 2, 3)]

/-- Witness for the C4 theorem at the tetrahedron with its built adjacency
map. -/
theorem get_connected_components_partition_witness :
    ∃ fuel comps,
      get_connected_components tetraList (buildET tetraList) fuel = some comps
      ∧ (∀ t ∈ tetraList, comps.countP (fun c => decide (t ∈ c)) = 1)
      ∧ (∀ c ∈ comps, ∃ s, s ∈ tetraList ∧ ∀ x, x ∈ c ↔
          Relation.ReflTransGen (adjStep tetraList (buildET tetraList)) s x) :=
  get_connected_components_partition tetraList (buildET tetraList)
    (fun e t ht => ((mem_buildET tetraList e t).mp ht).2)
    (by decide)

/-- `free_edges` from the source: the edges of the triangle whose current
adjacency list has exactly one entry. -/
def free_edges (triangle : Triangle) (edge_triangle : Edge → List Triangle) :
    List Edge :=
  (edges_from_triangle triangle).filter
    (fun e => decide ((edge_triangle e).length = 1))

/-- State of `remove_unwanted_triangles`: surviving set `ret`, the mutable
adjacency map, and the worklist `have_free_faces`. -/
structure RState where
  ret : List Triangle
  et : Edge → List Triangle
  work : List Triangle

/-- One loop iteration of `remove_unwanted_triangles` on the popped triangle
`p`: remove `p` from each of its edges' lists in order, collecting each
list's remaining entries as `neighbours` just after that removal; drop `p`
from the surviving set and the worklist; re-add every neighbour that now has
a free edge. -/
def removeStep (s : RState) (p : Triangle) : RState :=
  let fold := (edges_from_triangle p).foldl
    (fun (acc : (Edge → List Triangle) × List Triangle) e =>
      (fun e2 => if e2 = e then (acc.1 e).erase p else acc.1 e2,
        acc.2 ++ (acc.1 e).erase p))
    (s.et, [])
  { ret := s.ret.erase p
    et := fold.1
    work := fold.2.foldl
      (fun w n => if free_edges n fold.1 ≠ [] then sadd w n else w)
      (s.work.erase p) }

/-- The worklist pop order of a Python set is unspecified, so the loop is a
step relation quantifying over the popped element. -/
def RemStep (s s2 : RState) : Prop := ∃ p ∈ s.work, s2 = removeStep s p

/-- The state `remove_unwanted_triangles` starts from, with the adjacency
map built from the triangle list: all triangles survive and the worklist
holds exactly those with a free edge. -/
def removeInit (triangles : List Triangle) : RState :=
  { ret := triangles
    et := buildET triangles
    work := triangles.filter
      (fun t => decide (free_edges t (buildET triangles) ≠ [])) }

theorem edges_nodup_of_sorted (t : Triangle) (ht : sorted3 t) :
    (edges_from_triangle t).Nodup := by
  rw [edges_of_sorted t ht]
  obtain ⟨h1, h2⟩ := ht
  have ha : t.1 < t.2.1 := h1
  have hb : t.2.1 < t.2.2 := h2
  simp only [List.nodup_cons, List.mem_cons, List.not_mem_nil, or_false,
    List.mem_singleton, List.nodup_nil, and_true, Prod.mk.injEq, true_and,
    not_false_iff]
  omega

/-- Characterization of the per-edge removal fold in `removeStep`, for a
duplicate-free edge list. -/
theorem remove_fold_spec (p : Triangle) :
    ∀ (L : List Edge) (m : Edge → List Triangle) (acc : List Triangle),
      L.Nodup →
      (∀ e2, (L.foldl
          (fun (acc2 : (Edge → List Triangle) × List Triangle) e =>
            (fun e3 => if e3 = e then (acc2.1 e).erase p else acc2.1 e3,
              acc2.2 ++ (acc2.1 e).erase p))
          (m, acc)).1 e2
        = if e2 ∈ L then (m e2).erase p else m e2)
      ∧ (∀ t, t ∈ (L.foldl
          (fun (acc2 : (Edge → List Triangle) × List Triangle) e =>
            (fun e3 => if e3 = e then (acc2.1 e).erase p else acc2.1 e3,
              acc2.2 ++ (acc2.1 e).erase p))
          (m, acc)).2
        ↔ t ∈ acc ∨ ∃ e ∈ L, t ∈ (m e).erase p) := by
  intro L
  induction L with
  | nil =>
    intro m acc _
    constructor
    · intro e2
      simp
    · intro t
      simp
  | cons e L ih =>
    intro m acc hnd
    rw [List.nodup_cons] at hnd
    obtain ⟨heL, hndL⟩ := hnd
    simp only [List.foldl_cons]
    obtain ⟨ih1, ih2⟩ := ih
      (fun e3 => if e3 = e then (m e).erase p else m e3)
      (acc ++ (m e).erase p) hndL
    constructor
    · intro e2
      rw [ih1 e2]
      by_cases he2L : e2 ∈ L
      · have he2e : e2 ≠ e := fun h => heL (h ▸ he2L)
        rw [if_pos he2L, if_pos (List.mem_cons_of_mem _ he2L),
          if_neg he2e]
      · rw [if_neg he2L]
        by_cases he2e : e2 = e
        · rw [if_pos he2e, if_pos (List.mem_cons.mpr (Or.inl he2e))]
          rw [he2e]
        · rw [if_neg he2e,
            if_neg (fun h => (List.mem_cons.mp h).elim he2e he2L)]
    · intro t
      rw [ih2 t, List.mem_append]
      constructor
      · rintro ((ht | ht) | ⟨e2, he2, ht⟩)
        · exact Or.inl ht
        · exact Or.inr ⟨e, List.mem_cons_self _ _, ht⟩
        · have he2e : e2 ≠ e := fun h => heL (h ▸ he2)
          rw [if_neg he2e] at ht
          exact Or.inr ⟨e2, List.mem_cons_of_mem _ he2, ht⟩
      · rintro (ht | ⟨e2, he2, ht⟩)
        · exact Or.inl (Or.inl ht)
        · rcases List.mem_cons.mp he2 with he2e | he2L
          · rw [he2e] at ht
            exact Or.inl (Or.inr ht)
          · have he2e : e2 ≠ e := fun h => heL (h ▸ he2L)
            refine Or.inr ⟨e2, he2L, ?_⟩
            rw [if_neg he2e]
            exact ht

theorem work_fold_mem (et2 : Edge → List Triangle) :
    ∀ (ns w : List Triangle) (x : Triangle),
      x ∈ ns.foldl
          (fun w2 n => if free_edges n et2 ≠ [] then sadd w2 n else w2) w
        ↔ x ∈ w ∨ (x ∈ ns ∧ free_edges x et2 ≠ []) := by
  intro ns
  induction ns with
  | nil =>
    intro w x
    simp
  | cons n ns ih =>
    intro w x
    simp only [List.foldl_cons]
    rw [ih]
    by_cases hfree : free_edges n et2 ≠ []
    · rw [if_pos hfree, mem_sadd]
      constructor
      · rintro ((hx | hxn) | ⟨hx, hfx⟩)
        · exact Or.inl hx
        · exact Or.inr ⟨List.mem_cons.mpr (Or.inl hxn),
            by rw [hxn]; exact hfree⟩
        · exact Or.inr ⟨List.mem_cons_of_mem _ hx, hfx⟩
      · rintro (hx | ⟨hx, hfx⟩)
        · exact Or.inl (Or.inl hx)
        · rcases List.mem_cons.mp hx with hxn | hx
          · exact Or.inl (Or.inr hxn)
          · exact Or.inr ⟨hx, hfx⟩
    · rw [if_neg hfree]
      constructor
      · rintro (hx | ⟨hx, hfx⟩)
        · exact Or.inl hx
        · exact Or.inr ⟨List.mem_cons_of_mem _ hx, hfx⟩
      · rintro (hx | ⟨hx, hfx⟩)
        · exact Or.inl hx
        · rcases List.mem_cons.mp hx with hxn | hx
          · exfalso
            rw [hxn] at hfx
            exact hfree hfx
          · exact Or.inr ⟨hx, hfx⟩

theorem work_fold_nodup (et2 : Edge → List Triangle) :
    ∀ (ns w : List Triangle), w.Nodup →
      (ns.foldl
        (fun w2 n => if free_edges n et2 ≠ [] then sadd w2 n else w2)
        w).Nodup := by
  intro ns
  induction ns with
  | nil =>
    intro w h
    exact h
  | cons n ns ih =>
    intro w h
    simp only [List.foldl_cons]
    split
    · exact ih _ (sadd_nodup _ _ h)
    · exact ih _ h

/-- Well-formedness invariant of the repair loop. -/
structure RInv (s : RState) : Prop where
  retnd : s.ret.Nodup
  retsorted : ∀ t ∈ s.ret, sorted3 t
  count : ∀ (e : Edge) (t : Triangle),
    (s.et e).count t
      = if t ∈ s.ret ∧ e ∈ edges_from_triangle t then 1 else 0
  worknd : s.work.Nodup
  worksub : ∀ t ∈ s.work, t ∈ s.ret ∧ free_edges t s.et ≠ []
  workcomplete : ∀ t ∈ s.ret, free_edges t s.et ≠ [] → t ∈ s.work

theorem count_eq_one_of_nodup_mem {α : Type} [BEq α] [LawfulBEq α]
    {l : List α} {a : α} (hnd : l.Nodup) (ha : a ∈ l) : l.count a = 1 := by
  induction l with
  | nil => exact absurd ha (List.not_mem_nil a)
  | cons x l ih =>
    rw [List.nodup_cons] at hnd
    rw [List.count_cons]
    rcases List.mem_cons.mp ha with hax | hal
    · rw [hax, List.count_eq_zero.mpr (hax ▸ hnd.1)]
      simp
    · have hax : a ≠ x := fun h => hnd.1 (h ▸ hal)
      rw [ih hnd.2 hal]
      have hb : (x == a) = false := by
        rw [beq_eq_false_iff_ne]
        exact fun h => hax h.symm
      rw [hb]
      simp

theorem removeInit_inv (triangles : List Triangle) (hnd : triangles.Nodup)
    (hsorted : ∀ t ∈ triangles, sorted3 t) : RInv (removeInit triangles) := by
  refine ⟨hnd, hsorted, ?_, ?_, ?_, ?_⟩
  · intro e t
    show (buildET triangles e).count t
      = if t ∈ triangles ∧ e ∈ edges_from_triangle t then 1 else 0
    rw [count_buildET]
    by_cases htl : t ∈ triangles
    · have hone : triangles.count t = 1 := count_eq_one_of_nodup_mem hnd htl
      by_cases he : e ∈ edges_from_triangle t
      · have hedge : (edges_from_triangle t).count e = 1 :=
          count_eq_one_of_nodup_mem
            (edges_nodup_of_sorted t (hsorted t htl)) he
        rw [hone, hedge, if_pos ⟨htl, he⟩]
      · have hedge : (edges_from_triangle t).count e = 0 :=
          List.count_eq_zero.mpr he
        rw [hedge, if_neg (fun hc => he hc.2)]
        simp
    · have hzero : triangles.count t = 0 := List.count_eq_zero.mpr htl
      rw [hzero, if_neg (fun hc => htl hc.1)]
      simp
  · exact List.Nodup.filter _ hnd
  · intro t ht
    have ht2 : t ∈ triangles.filter
        (fun t => decide (free_edges t (buildET triangles) ≠ [])) := ht
    rw [List.mem_filter, decide_eq_true_eq] at ht2
    exact ht2
  · intro t ht hfree
    show t ∈ triangles.filter
      (fun t => decide (free_edges t (buildET triangles) ≠ []))
    exact List.mem_filter.mpr ⟨ht, decide_eq_true hfree⟩

theorem removeStep_spec (s : RState) (p : Triangle)
    (hpedges : (edges_from_triangle p).Nodup) :
    ((removeStep s p).ret = s.ret.erase p)
    ∧ (∀ e2, (removeStep s p).et e2
        = if e2 ∈ edges_from_triangle p then (s.et e2).erase p else s.et e2)
    ∧ (∀ x, x ∈ (removeStep s p).work ↔ x ∈ s.work.erase p
        ∨ ((∃ e ∈ edges_from_triangle p, x ∈ (s.et e).erase p)
            ∧ free_edges x (removeStep s p).et ≠ []))
    ∧ (s.work.Nodup → (removeStep s p).work.Nodup) := by
  obtain ⟨h1, h2⟩ :=
    remove_fold_spec p (edges_from_triangle p) s.et [] hpedges
  refine ⟨rfl, h1, ?_, ?_⟩
  · intro x
    show x ∈ ((edges_from_triangle p).foldl
        (fun (acc2 : (Edge → List Triangle) × List Triangle) e =>
          (fun e3 => if e3 = e then (acc2.1 e).erase p else acc2.1 e3,
            acc2.2 ++ (acc2.1 e).erase p))
        (s.et, [])).2.foldl
        (fun w n =>
          if free_edges n (removeStep s p).et ≠ [] then sadd w n else w)
        (s.work.erase p) ↔ _
    rw [work_fold_mem]
    rw [h2 x]
    simp only [List.not_mem_nil, false_or]
  · intro h
    exact work_fold_nodup _ _ _ (List.Nodup.erase _ h)

theorem removeStep_inv (s : RState) (hinv : RInv s) (p : Triangle)
    (hp : p ∈ s.work) : RInv (removeStep s p) := by
  obtain ⟨hpret, hpfree⟩ := hinv.worksub p hp
  have hpsorted : sorted3 p := hinv.retsorted p hpret
  have hpedges := edges_nodup_of_sorted p hpsorted
  obtain ⟨hret, hET, hWORK, hWND⟩ := removeStep_spec s p hpedges
  have hmem_et : ∀ (e : Edge) (t : Triangle),
      t ∈ s.et e ↔ t ∈ s.ret ∧ e ∈ edges_from_triangle t := by
    intro e t
    rw [← List.count_pos_iff, hinv.count]
    constructor
    · intro h
      by_contra hc
      rw [if_neg hc] at h
      omega
    · intro h
      rw [if_pos h]
      omega
  have hmem_ret2 : ∀ t, t ∈ s.ret.erase p ↔ t ≠ p ∧ t ∈ s.ret :=
    fun t => hinv.retnd.mem_erase_iff
  refine ⟨?_, ?_, ?_, ?_, ?_, ?_⟩
  · rw [hret]
    exact hinv.retnd.erase p
  · intro t ht
    rw [hret] at ht
    exact hinv.retsorted t (List.mem_of_mem_erase ht)
  · intro e t
    rw [hret, hET e]
    by_cases hep : e ∈ edges_from_triangle p
    · rw [if_pos hep]
      by_cases htp : t = p
      · subst htp
        rw [List.count_erase_self, hinv.count, if_pos ⟨hpret, hep⟩]
        have hnot : t ∉ s.ret.erase t :=
          fun hc => ((hmem_ret2 t).mp hc).1 rfl
        rw [if_neg
          (fun hc : t ∈ s.ret.erase t ∧ e ∈ edges_from_triangle t =>
            hnot hc.1)]
      · rw [List.count_erase_of_ne htp, hinv.count]
        by_cases htr : t ∈ s.ret ∧ e ∈ edges_from_triangle t
        · rw [if_pos htr, if_pos ⟨(hmem_ret2 t).mpr ⟨htp, htr.1⟩, htr.2⟩]
        · rw [if_neg htr,
            if_neg (fun hc => htr ⟨List.mem_of_mem_erase hc.1, hc.2⟩)]
    · rw [if_neg hep, hinv.count]
      by_cases htp : t = p
      · subst htp
        rw [if_neg (fun hc : t ∈ s.ret ∧ e ∈ edges_from_triangle t =>
            hep hc.2),
          if_neg (fun hc : t ∈ s.ret.erase t ∧ e ∈ edges_from_triangle t =>
            hep hc.2)]
      · by_cases htr : t ∈ s.ret ∧ e ∈ edges_from_triangle t
        · rw [if_pos htr, if_pos ⟨(hmem_ret2 t).mpr ⟨htp, htr.1⟩, htr.2⟩]
        · rw [if_neg htr,
            if_neg (fun hc => htr ⟨List.mem_of_mem_erase hc.1, hc.2⟩)]
  · exact hWND hinv.worknd
  · intro t ht
    rw [hWORK] at ht
    rcases ht with ht | ⟨⟨e, hep, hte⟩, hfree⟩
    · have htp : t ≠ p ∧ t ∈ s.work := hinv.worknd.mem_erase_iff.mp ht
      obtain ⟨htret, htfree⟩ := hinv.worksub t htp.2
      refine ⟨by rw [hret]; exact (hmem_ret2 t).mpr ⟨htp.1, htret⟩, ?_⟩
      obtain ⟨e, he⟩ := List.exists_mem_of_ne_nil _ htfree
      rw [free_edges, List.mem_filter, decide_eq_true_eq] at he
      obtain ⟨het, hlen⟩ := he
      have htmem : t ∈ s.et e := (hmem_et e t).mpr ⟨htret, het⟩
      have hetlist : s.et e = [t] := by
        rcases List.length_eq_one.mp hlen with ⟨a, ha⟩
        rw [ha] at htmem ⊢
        rw [List.mem_singleton] at htmem
        rw [htmem]
      refine List.ne_nil_of_mem
        (?_ : e ∈ free_edges t (removeStep s p).et)
      rw [free_edges, List.mem_filter, decide_eq_true_eq]
      refine ⟨het, ?_⟩
      rw [hET e]
      by_cases hep : e ∈ edges_from_triangle p
      · rw [if_pos hep, hetlist]
        have hnmem : p ∉ [t] := by
          rw [List.mem_singleton]
          exact fun h => htp.1 h.symm
        rw [List.erase_of_not_mem hnmem]
        rfl
      · rw [if_neg hep]
        exact hlen
    · have hte2 : t ∈ s.et e := List.mem_of_mem_erase hte
      have htret := ((hmem_et e t).mp hte2).1
      have htnp : t ≠ p := by
        intro h
        rw [h] at hte
        have hc := hinv.count e p
        rw [if_pos ⟨hpret, hep⟩] at hc
        have hzero : ((s.et e).erase p).count p = 0 := by
          rw [List.count_erase, hc]
          simp
        have hpos := List.count_pos_iff.mpr hte
        omega
      exact ⟨by rw [hret]; exact (hmem_ret2 t).mpr ⟨htnp, htret⟩, hfree⟩
  · intro t ht hfree
    rw [hret] at ht
    have htp := (hmem_ret2 t).mp ht
    rw [hWORK]
    by_cases hshared : ∃ e ∈ edges_from_triangle t, e ∈ edges_from_triangle p
    · obtain ⟨e, het, hep⟩ := hshared
      right
      refine ⟨⟨e, hep, ?_⟩, hfree⟩
      have htmem : t ∈ s.et e := (hmem_et e t).mpr ⟨htp.2, het⟩
      exact (List.mem_erase_of_ne htp.1).mpr htmem
    · left
      have hsame : free_edges t (removeStep s p).et = free_edges t s.et := by
        unfold free_edges
        apply List.filter_congr
        intro e he
        rw [hET e, if_neg (fun hc => hshared ⟨e, he, hc⟩)]
      rw [hsame] at hfree
      exact hinv.worknd.mem_erase_iff.mpr
        ⟨htp.1, hinv.workcomplete t htp.2 hfree⟩

/-- The invariant holds along every run from the initial state. -/
theorem run_inv (triangles : List Triangle) (hnd : triangles.Nodup)
    (hsorted : ∀ t ∈ triangles, sorted3 t) (n : Nat) (f : Nat → RState)
    (h0 : f 0 = removeInit triangles)
    (hstep : ∀ i < n, RemStep (f i) (f (i + 1))) :
    ∀ i ≤ n, RInv (f i) := by
  intro i
  induction i with
  | zero =>
    intro _
    rw [h0]
    exact removeInit_inv triangles hnd hsorted
  | succ i ih =>
    intro hle
    obtain ⟨p, hp, heq⟩ := hstep i (by omega)
    rw [heq]
    exact removeStep_inv (f i) (ih (by omega)) p hp

/-- C3: after any complete run of `remove_unwanted_triangles` on a
duplicate-free list of canonical triangles with its built adjacency map, no
edge of a surviving triangle has an adjacency list of size exactly 1: every
such edge has at least 2 incident triangles, and all of them survive. -/
theorem remove_unwanted_no_free_edge (triangles : List Triangle)
    (hnd : triangles.Nodup) (hsorted : ∀ t ∈ triangles, sorted3 t)
    (n : Nat) (f : Nat → RState) (h0 : f 0 = removeInit triangles)
    (hstep : ∀ i < n, RemStep (f i) (f (i + 1)))
    (hdone : (f n).work = []) :
    ∀ t ∈ (f n).ret, ∀ e ∈ edges_from_triangle t,
      2 ≤ ((f n).et e).length ∧ ∀ t2 ∈ (f n).et e, t2 ∈ (f n).ret := by
  have hinv := run_inv triangles hnd hsorted n f h0 hstep n (le_refl n)
  intro t ht e he
  have hmem : t ∈ (f n).et e := by
    rw [← List.count_pos_iff, hinv.count, if_pos ⟨ht, he⟩]
    omega
  have hnotfree : free_edges t (f n).et = [] := by
    by_contra hne
    have hw := hinv.workcomplete t ht hne
    rw [hdone] at hw
    exact absurd hw (List.not_mem_nil t)
  have hlen1 : ((f n).et e).length ≠ 1 := by
    intro h1
    have hmem2 : e ∈ free_edges t (f n).et := by
      rw [free_edges, List.mem_filter, decide_eq_true_eq]
      exact ⟨he, h1⟩
    rw [hnotfree] at hmem2
    exact absurd hmem2 (List.not_mem_nil e)
  have hpos : 0 < ((f n).et e).length := List.length_pos_of_mem hmem
  refine ⟨by omega, ?_⟩
  intro t2 ht2
  have hpos2 := List.count_pos_iff.mpr ht2
  rw [hinv.count] at hpos2
  by_contra hc
  rw [if_neg (fun h => hc h.1)] at hpos2
  omega

/-- Witness for C3 at the closed tetrahedron, whose initial worklist is
already empty, evaluated at the surviving triangle (0,1,2) and its
edge (0,1). -/
theorem remove_unwanted_no_free_edge_witness :
    2 ≤ ((removeInit tetraList).et (0, 1)).length
      ∧ ∀ t2 ∈ (removeInit tetraList).et (0, 1),
          t2 ∈ (removeInit tetraList).ret :=
  remove_unwanted_no_free_edge tetraList (by decide) (by decide) 0
    (fun _ => removeInit tetraList) rfl
    (fun i hi => absurd hi (by omega)) (by decide)
    (0, 1, 2) (by decide) (0, 1) (by decide)

/-- C8: along any run of the repair loop, each step removes exactly one
surviving triangle and removed triangles never return, so a run from a list
of `k` triangles makes at most `k` steps; and the loop stops (empty
worklist) exactly when no surviving triangle has a free edge. -/
theorem remove_unwanted_terminates (triangles : List Triangle)
    (hnd : triangles.Nodup) (hsorted : ∀ t ∈ triangles, sorted3 t)
    (n : Nat) (f : Nat → RState) (h0 : f 0 = removeInit triangles)
    (hstep : ∀ i < n, RemStep (f i) (f (i + 1))) :
    n ≤ triangles.length
    ∧ ((f n).work = [] ↔ ∀ t ∈ (f n).ret, free_edges t (f n).et = []) := by
  have hinvs := run_inv triangles hnd hsorted n f h0 hstep
  have hlen : ∀ i ≤ n, (f i).ret.length + i ≤ triangles.length := by
    intro i
    induction i with
    | zero =>
      intro _
      rw [h0]
      simp [removeInit]
    | succ i ih =>
      intro hle
      obtain ⟨p, hp, heq⟩ := hstep i (by omega)
      have hinv := hinvs i (by omega)
      have hpret : p ∈ (f i).ret := (hinv.worksub p hp).1
      have hdec : (f (i + 1)).ret.length = (f i).ret.length - 1 := by
        rw [heq]
        show ((f i).ret.erase p).length = _
        exact List.length_erase_of_mem hpret
      have hpos : 0 < (f i).ret.length := List.length_pos_of_mem hpret
      have := ih (by omega)
      omega
  constructor
  · have := hlen n (le_refl n)
    omega
  · have hinv := hinvs n (le_refl n)
    constructor
    · intro hdone t ht
      by_contra hne
      have hw := hinv.workcomplete t ht hne
      rw [hdone] at hw
      exact absurd hw (List.not_mem_nil t)
    · intro hall
      rw [List.eq_nil_iff_forall_not_mem]
      intro t htw
      obtain ⟨htret, htfree⟩ := hinv.worksub t htw
      exact htfree (hall t htret)

/-- Witness for C8 at the closed tetrahedron with the empty run. -/
theorem remove_unwanted_terminates_witness :
    0 ≤ tetraList.length
    ∧ ((removeInit tetraList).work = [] ↔
        ∀ t ∈ (removeInit tetraList).ret,
          free_edges t (removeInit tetraList).et = []) :=
  remove_unwanted_terminates tetraList (by decide) (by decide) 0
    (fun _ => removeInit tetraList) rfl
    (fun i hi => absurd hi (by omega))

/-- `tuple(sorted(indices))` from `process_file`: the three interned vertex
indices in ascending order. -/
def sort3 (i0 i1 i2 : Nat) : Triangle :=
  if i0 ≤ i1 then
    if i1 ≤ i2 then (i0, i1, i2)
    else if i0 ≤ i2 then (i0, i2, i1) else (i2, i0, i1)
  else
    if i0 ≤ i2 then (i1, i0, i2)
    else if i1 ≤ i2 then (i1, i2, i0) else (i2, i1, i0)

theorem sort3_swap01 (i0 i1 i2 : Nat) : sort3 i0 i1 i2 = sort3 i1 i0 i2 := by
  unfold sort3
  split_ifs <;> simp [Prod.mk.injEq] <;> omega

theorem sort3_swap12 (i0 i1 i2 : Nat) : sort3 i0 i1 i2 = sort3 i0 i2 i1 := by
  unfold sort3
  split_ifs <;> simp [Prod.mk.injEq] <;> omega

theorem sort3_sorted3 (i0 i1 i2 : Nat) (h01 : i0 ≠ i1) (h02 : i0 ≠ i2)
    (h12 : i1 ≠ i2) : sorted3 (sort3 i0 i1 i2) := by
  unfold sort3 sorted3
  split_ifs <;> refine ⟨by dsimp only; omega, by dsimp only; omega⟩

/-- The vertex-interning step of `process_file`: look the point up in
`point_index` (equivalently, in the first-seen-order point list), appending
it with the next dense index when new.  Returns the updated point list and
the point's index. -/
def internPoint {α : Type} [DecidableEq α] (points : List α) (p : α) :
    List α × Nat :=
  if p ∈ points then (points, points.indexOf p)
  else (points ++ [p], points.length)

/-- State of the ingestion loop of `process_file` (the unused `edges` list
of the source is omitted; `edge_triange` keeps the source's spelling). -/
structure PState (α : Type) where
  points : List α
  triangles : List Triangle
  edge_triange : Edge → List Triangle

/-- One iteration of the ingestion loop: intern the record's three points in
order, sort the index triple, and unless that triangle is already known add
it to the set and register it on its three edges. -/
def processRecord {α : Type} [DecidableEq α] (s : PState α)
    (rec : α × α × α) : PState α :=
  if sort3 (internPoint s.points rec.1).2
      (internPoint (internPoint s.points rec.1).1 rec.2.1).2
      (internPoint (internPoint (internPoint s.points rec.1).1 rec.2.1).1
        rec.2.2).2 ∈ s.triangles then
    { s with points :=
        (internPoint (internPoint (internPoint s.points rec.1).1 rec.2.1).1
          rec.2.2).1 }
  else
    { points :=
        (internPoint (internPoint (internPoint s.points rec.1).1 rec.2.1).1
          rec.2.2).1
      triangles := s.triangles ++
        [sort3 (internPoint s.points rec.1).2
          (internPoint (internPoint s.points rec.1).1 rec.2.1).2
          (internPoint (internPoint (internPoint s.points rec.1).1
            rec.2.1).1 rec.2.2).2]
      edge_triange := addTriangleEdges s.edge_triange
        (sort3 (internPoint s.points rec.1).2
          (internPoint (internPoint s.points rec.1).1 rec.2.1).2
          (internPoint (internPoint (internPoint s.points rec.1).1
            rec.2.1).1 rec.2.2).2) }

/-- The ingestion loop of `process_file` over the raw records. -/
def process_file {α : Type} [DecidableEq α] (records : List (α × α × α)) :
    PState α :=
  records.foldl processRecord
    { points := [], triangles := [], edge_triange := fun _ => [] }

theorem internPoint_nodup {α : Type} [DecidableEq α] (points : List α)
    (p : α) (hnd : points.Nodup) : (internPoint points p).1.Nodup := by
  unfold internPoint
  split
  · exact hnd
  · simp only
    rw [List.nodup_append]
    refine ⟨hnd, List.nodup_singleton p, ?_⟩
    intro x hx
    rw [List.mem_singleton]
    intro hxp
    subst hxp
    exact absurd hx (by assumption)

theorem internPoint_mem {α : Type} [DecidableEq α] (points : List α)
    (p : α) : p ∈ (internPoint points p).1 := by
  unfold internPoint
  split
  · assumption
  · simp

theorem internPoint_extend {α : Type} [DecidableEq α] (points : List α)
    (p : α) : ∃ l, (internPoint points p).1 = points ++ l := by
  unfold internPoint
  split
  · exact ⟨[], (List.append_nil points).symm⟩
  · exact ⟨[p], rfl⟩

theorem internPoint_idx {α : Type} [DecidableEq α] (points : List α)
    (p : α) : (internPoint points p).2 = (internPoint points p).1.indexOf p := by
  unfold internPoint
  split
  · rfl
  · simp only
    rw [List.indexOf_append_of_not_mem (by assumption), List.indexOf_cons_self]
    omega

/-- The sorted interned index triple of a record, read off a state's point
list. -/
def internedTriangle {α : Type} [DecidableEq α] (S : PState α)
    (r : α × α × α) : Triangle :=
  sort3 (S.points.indexOf r.1) (S.points.indexOf r.2.1)
    (S.points.indexOf r.2.2)

theorem sort3_perm_bca (a b c : Nat) : sort3 b c a = sort3 a b c := by
  rw [sort3_swap01 b c a, sort3_swap12 c b a, sort3_swap01 c a b,
    sort3_swap12 a c b]

theorem sort3_perm_cab (a b c : Nat) : sort3 c a b = sort3 a b c := by
  rw [sort3_swap01 c a b, sort3_swap12 a c b]

theorem sort3_perm_cba (a b c : Nat) : sort3 c b a = sort3 a b c := by
  rw [sort3_swap12 c b a, sort3_perm_cab a b c]

theorem processRecord_points {α : Type} [DecidableEq α] (s : PState α)
    (rec : α × α × α) :
    (processRecord s rec).points
      = (internPoint (internPoint (internPoint s.points rec.1).1 rec.2.1).1
          rec.2.2).1 := by
  unfold processRecord
  split <;> rfl

theorem processRecord_cases {α : Type} [DecidableEq α] (s : PState α)
    (rec : α × α × α) :
    ((processRecord s rec).triangles = s.triangles
      ∧ (processRecord s rec).edge_triange = s.edge_triange
      ∧ sort3 (internPoint s.points rec.1).2
          (internPoint (internPoint s.points rec.1).1 rec.2.1).2
          (internPoint (internPoint (internPoint s.points rec.1).1
            rec.2.1).1 rec.2.2).2 ∈ s.triangles)
    ∨ ((processRecord s rec).triangles
        = s.triangles ++ [sort3 (internPoint s.points rec.1).2
            (internPoint (internPoint s.points rec.1).1 rec.2.1).2
            (internPoint (internPoint (internPoint s.points rec.1).1
              rec.2.1).1 rec.2.2).2]
      ∧ (processRecord s rec).edge_triange
          = addTriangleEdges s.edge_triange
              (sort3 (internPoint s.points rec.1).2
                (internPoint (internPoint s.points rec.1).1 rec.2.1).2
                (internPoint (internPoint (internPoint s.points rec.1).1
                  rec.2.1).1 rec.2.2).2)
      ∧ sort3 (internPoint s.points rec.1).2
          (internPoint (internPoint s.points rec.1).1 rec.2.1).2
          (internPoint (internPoint (internPoint s.points rec.1).1
            rec.2.1).1 rec.2.2).2 ∉ s.triangles) := by
  unfold processRecord
  split
  · left
    exact ⟨rfl, rfl, by assumption⟩
  · right
    exact ⟨rfl, rfl, by assumption⟩

theorem recTriangle_eq {α : Type} [DecidableEq α] (s : PState α)
    (rec : α × α × α) (hnd : s.points.Nodup) :
    sort3 (internPoint s.points rec.1).2
      (internPoint (internPoint s.points rec.1).1 rec.2.1).2
      (internPoint (internPoint (internPoint s.points rec.1).1 rec.2.1).1
        rec.2.2).2
      = internedTriangle (processRecord s rec) rec
    ∧ rec.1 ∈ (processRecord s rec).points
    ∧ rec.2.1 ∈ (processRecord s rec).points
    ∧ rec.2.2 ∈ (processRecord s rec).points
    ∧ (processRecord s rec).points.Nodup
    ∧ ∃ l, (processRecord s rec).points = s.points ++ l := by
  obtain ⟨l1, he1⟩ := internPoint_extend s.points rec.1
  obtain ⟨l2, he2⟩ :=
    internPoint_extend (internPoint s.points rec.1).1 rec.2.1
  obtain ⟨l3, he3⟩ := internPoint_extend
    (internPoint (internPoint s.points rec.1).1 rec.2.1).1 rec.2.2
  have hm1 : rec.1 ∈ (internPoint s.points rec.1).1 := internPoint_mem _ _
  have hm2 : rec.2.1
      ∈ (internPoint (internPoint s.points rec.1).1 rec.2.1).1 :=
    internPoint_mem _ _
  have hm3 : rec.2.2 ∈ (internPoint (internPoint (internPoint s.points
      rec.1).1 rec.2.1).1 rec.2.2).1 := internPoint_mem _ _
  have hm12 : rec.1
      ∈ (internPoint (internPoint s.points rec.1).1 rec.2.1).1 := by
    rw [he2]
    exact List.mem_append_left _ hm1
  have hm13 : rec.1 ∈ (internPoint (internPoint (internPoint s.points
      rec.1).1 rec.2.1).1 rec.2.2).1 := by
    rw [he3]
    exact List.mem_append_left _ hm12
  have hm23 : rec.2.1 ∈ (internPoint (internPoint (internPoint s.points
      rec.1).1 rec.2.1).1 rec.2.2).1 := by
    rw [he3]
    exact List.mem_append_left _ hm2
  have hi0 : (internPoint s.points rec.1).2
      = (internPoint (internPoint (internPoint s.points rec.1).1 rec.2.1).1
          rec.2.2).1.indexOf rec.1 := by
    rw [internPoint_idx, he3, List.indexOf_append_of_mem hm12, he2,
      List.indexOf_append_of_mem hm1]
  have hi1 : (internPoint (internPoint s.points rec.1).1 rec.2.1).2
      = (internPoint (internPoint (internPoint s.points rec.1).1 rec.2.1).1
          rec.2.2).1.indexOf rec.2.1 := by
    rw [internPoint_idx, he3, List.indexOf_append_of_mem hm2]
  have hi2 : (internPoint (internPoint (internPoint s.points rec.1).1
      rec.2.1).1 rec.2.2).2
      = (internPoint (internPoint (internPoint s.points rec.1).1 rec.2.1).1
          rec.2.2).1.indexOf rec.2.2 := internPoint_idx _ _
  refine ⟨?_, ?_, ?_, ?_, ?_, ?_⟩
  · rw [internedTriangle, processRecord_points, hi0, hi1, hi2]
  · rw [processRecord_points]
    exact hm13
  · rw [processRecord_points]
    exact hm23
  · rw [processRecord_points]
    exact hm3
  · rw [processRecord_points]
    exact internPoint_nodup _ _ (internPoint_nodup _ _
      (internPoint_nodup _ _ hnd))
  · refine ⟨l1 ++ (l2 ++ l3), ?_⟩
    rw [processRecord_points, he3, he2, he1, List.append_assoc,
      List.append_assoc]

theorem recTriangle_sorted {α : Type} [DecidableEq α] (s : PState α)
    (rec : α × α × α) (hnd : s.points.Nodup) (hd1 : rec.1 ≠ rec.2.1)
    (hd2 : rec.1 ≠ rec.2.2) (hd3 : rec.2.1 ≠ rec.2.2) :
    sorted3 (internedTriangle (processRecord s rec) rec) := by
  obtain ⟨-, hm1, hm2, hm3, -, -⟩ := recTriangle_eq s rec hnd
  apply sort3_sorted3
  · intro h
    exact hd1 ((List.indexOf_inj hm1 hm2).mp h)
  · intro h
    exact hd2 ((List.indexOf_inj hm1 hm3).mp h)
  · intro h
    exact hd3 ((List.indexOf_inj hm2 hm3).mp h)

theorem internedTriangle_stable {α : Type} [DecidableEq α] (S1 F : PState α)
    (r : α × α × α) (hext : ∃ l, F.points = S1.points ++ l)
    (hm1 : r.1 ∈ S1.points) (hm2 : r.2.1 ∈ S1.points)
    (hm3 : r.2.2 ∈ S1.points) :
    internedTriangle F r = internedTriangle S1 r := by
  obtain ⟨l, hl⟩ := hext
  unfold internedTriangle
  rw [hl, List.indexOf_append_of_mem hm1, List.indexOf_append_of_mem hm2,
    List.indexOf_append_of_mem hm3]

/-- Well-formedness invariant of the ingestion loop. -/
structure PInv {α : Type} [DecidableEq α] (s : PState α) : Prop where
  pnd : s.points.Nodup
  tnd : s.triangles.Nodup
  tsorted : ∀ t ∈ s.triangles, sorted3 t
  count : ∀ (e : Edge) (t : Triangle),
    (s.edge_triange e).count t
      = if t ∈ s.triangles ∧ e ∈ edges_from_triangle t then 1 else 0

theorem processRecord_inv {α : Type} [DecidableEq α] (s : PState α)
    (rec : α × α × α) (hinv : PInv s) (hd1 : rec.1 ≠ rec.2.1)
    (hd2 : rec.1 ≠ rec.2.2) (hd3 : rec.2.1 ≠ rec.2.2) :
    PInv (processRecord s rec) := by
  obtain ⟨htr, hm1, hm2, hm3, hnd2, hext⟩ := recTriangle_eq s rec hinv.pnd
  have hsorted := recTriangle_sorted s rec hinv.pnd hd1 hd2 hd3
  rw [← htr] at hsorted
  rcases processRecord_cases s rec with ⟨ht, he, hin⟩ | ⟨ht, he, hnin⟩
  · refine ⟨hnd2, ?_, ?_, ?_⟩
    · rw [ht]
      exact hinv.tnd
    · rw [ht]
      exact hinv.tsorted
    · intro e t
      rw [ht, he]
      exact hinv.count e t
  · refine ⟨hnd2, ?_, ?_, ?_⟩
    · rw [ht, List.nodup_append]
      refine ⟨hinv.tnd, List.nodup_singleton _, ?_⟩
      intro x hx
      rw [List.mem_singleton]
      intro hxe
      rw [hxe] at hx
      exact hnin hx
    · rw [ht]
      intro t htm
      rcases List.mem_append.mp htm with htm | htm
      · exact hinv.tsorted t htm
      · rw [List.mem_singleton] at htm
        rw [htm]
        exact hsorted
    · intro e t
      rw [ht, he]
      unfold addTriangleEdges
      rw [addTriangleEdges_count, hinv.count]
      by_cases hts : t = sort3 (internPoint s.points rec.1).2
          (internPoint (internPoint s.points rec.1).1 rec.2.1).2
          (internPoint (internPoint (internPoint s.points rec.1).1
            rec.2.1).1 rec.2.2).2
      · rw [if_pos hts, if_neg (fun hc => hnin (hts ▸ hc.1))]
        have hmemapp : t ∈ s.triangles ++ [sort3 (internPoint s.points
            rec.1).2 (internPoint (internPoint s.points rec.1).1 rec.2.1).2
            (internPoint (internPoint (internPoint s.points rec.1).1
              rec.2.1).1 rec.2.2).2] := by
          rw [hts]
          exact List.mem_append_right _ (List.mem_singleton.mpr rfl)
        by_cases hee : e ∈ edges_from_triangle t
        · rw [if_pos ⟨hmemapp, hee⟩]
          rw [hts] at hee
          have hc1 := count_eq_one_of_nodup_mem
            (edges_nodup_of_sorted _ hsorted) hee
          omega
        · rw [if_neg (fun hc => hee hc.2)]
          rw [hts] at hee
          have hc0 := List.count_eq_zero.mpr hee
          omega
      · rw [if_neg hts]
        have hiff : (t ∈ s.triangles ++ [sort3 (internPoint s.points
            rec.1).2 (internPoint (internPoint s.points rec.1).1 rec.2.1).2
            (internPoint (internPoint (internPoint s.points rec.1).1
              rec.2.1).1 rec.2.2).2] ∧ e ∈ edges_from_triangle t)
            ↔ (t ∈ s.triangles ∧ e ∈ edges_from_triangle t) := by
          constructor
          · rintro ⟨hmm, hee⟩
            rcases List.mem_append.mp hmm with hmm | hmm
            · exact ⟨hmm, hee⟩
            · rw [List.mem_singleton] at hmm
              exact absurd hmm hts
          · rintro ⟨hmm, hee⟩
            exact ⟨List.mem_append_left _ hmm, hee⟩
        by_cases hc : t ∈ s.triangles ∧ e ∈ edges_from_triangle t
        · rw [if_pos hc, if_pos (hiff.mpr hc)]
        · rw [if_neg hc, if_neg (fun h => hc (hiff.mp h))]

theorem process_fold_spec {α : Type} [DecidableEq α] :
    ∀ (records : List (α × α × α)) (s : PState α), PInv s →
      (∀ r ∈ records, r.1 ≠ r.2.1 ∧ r.1 ≠ r.2.2 ∧ r.2.1 ≠ r.2.2) →
      PInv (records.foldl processRecord s)
      ∧ (∃ l, (records.foldl processRecord s).points = s.points ++ l)
      ∧ (∀ t ∈ s.triangles, t ∈ (records.foldl processRecord s).triangles)
      ∧ (∀ r ∈ records,
          r.1 ∈ (records.foldl processRecord s).points
          ∧ r.2.1 ∈ (records.foldl processRecord s).points
          ∧ r.2.2 ∈ (records.foldl processRecord s).points
          ∧ internedTriangle (records.foldl processRecord s) r
              ∈ (records.foldl processRecord s).triangles) := by
  intro records
  induction records with
  | nil =>
    intro s hinv _
    exact ⟨hinv, ⟨[], (List.append_nil _).symm⟩, fun t ht => ht,
      fun r hr => absurd hr (List.not_mem_nil r)⟩
  | cons r rs ih =>
    intro s hinv hdist
    obtain ⟨hd1, hd2, hd3⟩ := hdist r (List.mem_cons_self _ _)
    have hinv1 := processRecord_inv s r hinv hd1 hd2 hd3
    obtain ⟨hF, ⟨lF, hextF⟩, hmono, hrecs⟩ :=
      ih (processRecord s r) hinv1
        (fun x hx => hdist x (List.mem_cons_of_mem _ hx))
    obtain ⟨htr, hm1, hm2, hm3, hnd1, ⟨l0, hext0⟩⟩ :=
      recTriangle_eq s r hinv.pnd
    simp only [List.foldl_cons]
    refine ⟨hF, ?_, ?_, ?_⟩
    · exact ⟨l0 ++ lF, by rw [hextF, hext0, List.append_assoc]⟩
    · intro t ht
      apply hmono
      rcases processRecord_cases s r with ⟨ht2, -, -⟩ | ⟨ht2, -, -⟩
      · rw [ht2]
        exact ht
      · rw [ht2]
        exact List.mem_append_left _ ht
    · intro r2 hr2
      rcases List.mem_cons.mp hr2 with hr2 | hr2
      · have hstable : internedTriangle
            (rs.foldl processRecord (processRecord s r)) r
              = internedTriangle (processRecord s r) r :=
          internedTriangle_stable (processRecord s r) _ r
            ⟨lF, hextF⟩ hm1 hm2 hm3
        have htri : internedTriangle (processRecord s r) r
            ∈ (processRecord s r).triangles := by
          rcases processRecord_cases s r with ⟨ht2, -, hin⟩ | ⟨ht2, -, -⟩
          · rw [ht2, ← htr]
            exact hin
          · rw [ht2, ← htr]
            exact List.mem_append_right _ (List.mem_singleton.mpr rfl)
        rw [hr2]
        refine ⟨?_, ?_, ?_, ?_⟩
        · rw [hextF]
          exact List.mem_append_left _ hm1
        · rw [hextF]
          exact List.mem_append_left _ hm2
        · rw [hextF]
          exact List.mem_append_left _ hm3
        · rw [hstable]
          exact hmono _ htri
      · exact hrecs r2 hr2

/-- The record's three points are pairwise distinct (individually valid,
non-degenerate input triangles). -/
def distinctRecord {α : Type} (r : α × α × α) : Prop :=
  r.1 ≠ r.2.1 ∧ r.1 ≠ r.2.2 ∧ r.2.1 ≠ r.2.2

instance distinctRecord_dec {α : Type} [DecidableEq α] :
    DecidablePred (distinctRecord (α := α)) := fun r => by
  unfold distinctRecord
  infer_instance

/-- `r2` lists the same three points as `r1`, in some order. -/
def perm3 {α : Type} (r1 r2 : α × α × α) : Prop :=
  (r2.1, r2.2.1, r2.2.2) = (r1.1, r1.2.1, r1.2.2)
  ∨ (r2.1, r2.2.1, r2.2.2) = (r1.1, r1.2.2, r1.2.1)
  ∨ (r2.1, r2.2.1, r2.2.2) = (r1.2.1, r1.1, r1.2.2)
  ∨ (r2.1, r2.2.1, r2.2.2) = (r1.2.1, r1.2.2, r1.1)
  ∨ (r2.1, r2.2.1, r2.2.2) = (r1.2.2, r1.1, r1.2.1)
  ∨ (r2.1, r2.2.1, r2.2.2) = (r1.2.2, r1.2.1, r1.1)

instance perm3_dec {α : Type} [DecidableEq α] (r1 r2 : α × α × α) :
    Decidable (perm3 r1 r2) := by
  unfold perm3
  infer_instance

/-- C9: ingestion deduplicates triangles by sorted vertex-index triple: two
records listing the same three (pairwise distinct) points in different
orders intern to the same sorted triple, which occurs exactly once in the
active triangle set and exactly once in each of its three edges' adjacency
lists. -/
theorem process_file_dedup {α : Type} [DecidableEq α]
    (records : List (α × α × α))
    (hdist : ∀ r ∈ records, distinctRecord r)
    (r1 r2 : α × α × α) (h1 : r1 ∈ records) (h2 : r2 ∈ records)
    (hperm : perm3 r1 r2) :
    internedTriangle (process_file records) r2
        = internedTriangle (process_file records) r1
    ∧ internedTriangle (process_file records) r1
        ∈ (process_file records).triangles
    ∧ (process_file records).triangles.count
        (internedTriangle (process_file records) r1) = 1
    ∧ ∀ e ∈ edges_from_triangle (internedTriangle (process_file records) r1),
        ((process_file records).edge_triange e).count
          (internedTriangle (process_file records) r1) = 1 := by
  have hinit : PInv ({ points := [], triangles := [], edge_triange := fun _ => [] } : PState α) := by
    refine ⟨List.nodup_nil, List.nodup_nil, ?_, ?_⟩
    · intro t ht
      exact absurd ht (List.not_mem_nil t)
    · intro e t
      rw [if_neg (fun hc => List.not_mem_nil t hc.1)]
      rfl
  obtain ⟨hF, -, -, hrecs⟩ := process_fold_spec records _ hinit
    (fun r hr => hdist r hr)
  obtain ⟨-, -, -, hmemtri⟩ := hrecs r1 h1
  refine ⟨?_, hmemtri, count_eq_one_of_nodup_mem hF.tnd hmemtri, ?_⟩
  · unfold internedTriangle
    rcases hperm with hp | hp | hp | hp | hp | hp <;>
      (rw [Prod.mk.injEq, Prod.mk.injEq] at hp
       obtain ⟨hpa, hpb, hpc⟩ := hp
       rw [hpa, hpb, hpc])
    · exact (sort3_swap12 _ _ _).symm
    · exact (sort3_swap01 _ _ _).symm
    · exact sort3_perm_bca _ _ _
    · exact sort3_perm_cab _ _ _
    · exact sort3_perm_cba _ _ _
  · intro e he
    unfold process_file
    rw [hF.count, if_pos ⟨hmemtri, he⟩]

/-- Witness for C9 at two concrete duplicate records with permuted point
order. -/
theorem process_file_dedup_witness :
    internedTriangle (process_file [((10, 20, 30) : Nat × Nat × Nat),
        (10, 30, 20)]) (10, 30, 20)
        = internedTriangle (process_file [((10, 20, 30) : Nat × Nat × Nat),
            (10, 30, 20)]) (10, 20, 30)
    ∧ internedTriangle (process_file [((10, 20, 30) : Nat × Nat × Nat),
        (10, 30, 20)]) (10, 20, 30)
        ∈ (process_file [((10, 20, 30) : Nat × Nat × Nat),
            (10, 30, 20)]).triangles
    ∧ (process_file [((10, 20, 30) : Nat × Nat × Nat),
        (10, 30, 20)]).triangles.count
        (internedTriangle (process_file [((10, 20, 30) : Nat × Nat × Nat),
          (10, 30, 20)]) (10, 20, 30)) = 1
    ∧ ∀ e ∈ edges_from_triangle (internedTriangle
        (process_file [((10, 20, 30) : Nat × Nat × Nat), (10, 30, 20)])
        (10, 20, 30)),
        ((process_file [((10, 20, 30) : Nat × Nat × Nat),
          (10, 30, 20)]).edge_triange e).count
          (internedTriangle (process_file [((10, 20, 30) : Nat × Nat × Nat),
            (10, 30, 20)]) (10, 20, 30)) = 1 :=
  process_file_dedup [(10, 20, 30), (10, 30, 20)] (by decide)
    (10, 20, 30) (10, 30, 20) (by decide) (by decide) (by decide)

end Poroznost
